import Mathlib

/-!
Instruction buffering and the sampling driver of the cuda-quantum runtime.

A shallow embedding of

* `runtime/cudaq/qis/managers/BasicExecutionManager.h` (namespace `BasicExecutionManager`)
* `runtime/cudaq/algorithms/sample.h` (namespace `details`)

Calls into collaborators that the sources only declare (the pure virtual hooks of the
execution manager, the `quantum_platform`, the wrapped kernel) are recorded, in call order,
in a trace carried by the state.  `std::size_t` identifiers are natural numbers.  A `double`
gate parameter is modelled by a rational number: the only arithmetic the manager performs on
parameters is the product with `-1.0`, which is exact.
-/

namespace cudaq

/-! ## Data model -/

/-- Qudit reference `cudaq::QuditInfo`: the number of levels and the identifier. -/
structure QuditInfo where
  levels : Nat
  id : Nat
  deriving DecidableEq, Repr

/-- Instruction tuple of `BasicExecutionManager`: operation name, rotation parameters,
control qudits and target qudits. -/
structure Instruction where
  name : String
  params : List ℚ
  controls : List QuditInfo
  targets : List QuditInfo
  deriving DecidableEq

/-- Modelled from the spec: `common/MeasureCounts.h` is not part of the sources.  A counts
table maps an observed bit-pattern string to a non-negative occurrence count; it is kept as an
association list with one entry per distinct pattern. -/
abbrev sample_result := List (String × Nat)

/-- Modelled from the spec: `details::future` is only used by name in the sources; it is the
future placeholder populated by the remote subsystem, identified here by its job handle. -/
structure future where
  job : Nat
  deriving DecidableEq, Repr

/-- Fields of `cudaq::ExecutionContext` that the two sources read or write
(`common/ExecutionContext.h` itself is not part of the sources). -/
structure ExecutionContext where
  name : String
  shots : Int
  kernelName : String := ""
  hasConditionalsOnMeasureResults : Bool := false
  asyncExec : Bool := false
  result : sample_result := []
  futureResult : future := ⟨0⟩
  deriving DecidableEq

namespace BasicExecutionManager

/-- Calls the manager makes into its subtype (the pure virtual hooks) and into the index pool
of its base class, in the order they are made. -/
inductive Event where
  | allocateQudit (q : QuditInfo)
  | deallocateQudit (q : Nat)
  | handleExecutionContextChanged
  | handleExecutionContextEnded
  | executeInstruction (inst : Instruction)
  | measureQudit (q : QuditInfo)
  | returnIndex (idx : Nat)
  deriving DecidableEq

/-- The one hook that returns a value: the outcome of `measureQudit` is decided by the
subtype, as a function of everything the subtype has been asked to do so far. -/
structure Executor where
  measureQudit : List Event → QuditInfo → Int

/-- Member data of `BasicExecutionManager`, the index pool of its base class and the trace of
hook calls.  Queues are lists with the front at the head; the adjoint stack is a list with the
top at the head. -/
structure State where
  executionContext : Option ExecutionContext := none
  contextQuditIdsForDeletion : List Nat := []
  instructionQueue : List Instruction := []
  adjointQueueStack : List (List Instruction) := []
  extraControlIds : List Nat := []
  inAdjointRegion : Bool := false
  availableIndices : List Nat := []
  totalQudits : Nat := 0
  trace : List Event := []
  deriving DecidableEq

/-! ## Index pool of the base class -/

/-- Modelled from the spec: `cudaq/qis/execution_manager.h` is not part of the sources.  The
pool holds the available identifiers; returning an identifier makes it available again. -/
def returnIndex (s : State) (idx : Nat) : State :=
  { s with availableIndices := idx :: s.availableIndices,
           trace := s.trace ++ [Event.returnIndex idx] }

/-- Modelled from the spec: allocation assigns the next identifier from the available set;
there is none to assign when the set is empty. -/
def getNextIndex (s : State) : Option (Nat × State) :=
  match s.availableIndices with
  | [] => none
  | next :: rest => some (next, { s with availableIndices := rest })

/-- Modelled from the spec: the number of identifiers currently available. -/
def numAvailable (s : State) : Nat := s.availableIndices.length

/-- Modelled from the spec: the size of the whole pool. -/
def totalNumQudits (s : State) : Nat := s.totalQudits

/-! ## Hooks implemented by the subtype -/

def allocateQudit (s : State) (q : QuditInfo) : State :=
  { s with trace := s.trace ++ [Event.allocateQudit q] }

def deallocateQudit (s : State) (q : Nat) : State :=
  { s with trace := s.trace ++ [Event.deallocateQudit q] }

def handleExecutionContextChanged (s : State) : State :=
  { s with trace := s.trace ++ [Event.handleExecutionContextChanged] }

def handleExecutionContextEnded (s : State) : State :=
  { s with trace := s.trace ++ [Event.handleExecutionContextEnded] }

def executeInstruction (s : State) (inst : Instruction) : State :=
  { s with trace := s.trace ++ [Event.executeInstruction inst] }

def measureQudit (ex : Executor) (s : State) (q : QuditInfo) : Int × State :=
  (ex.measureQudit s.trace q, { s with trace := s.trace ++ [Event.measureQudit q] })

/-! ## BasicExecutionManager -/

/-- Loop `while (!instructionQueue.empty()) instructionQueue.pop();`. -/
def popAll : List Instruction → List Instruction
  | [] => []
  | _ :: rest => popAll rest

def setExecutionContext (s : State) (_ctx : Option ExecutionContext) : State :=
  let s := { s with executionContext := _ctx }
  let s := handleExecutionContextChanged s
  { s with instructionQueue := popAll s.instructionQueue }

/-- Loop of `synchronize`: execute the front instruction, then pop it, until the queue is
empty. -/
def synchronizeLoop : List Instruction → State → State
  | [], s => { s with instructionQueue := [] }
  | instruction :: rest, s =>
      synchronizeLoop rest { executeInstruction s instruction with instructionQueue := rest }

def synchronize (s : State) : State :=
  synchronizeLoop s.instructionQueue s

def measure (ex : Executor) (s : State) (target : QuditInfo) : Int × State :=
  let s := synchronize s
  measureQudit ex s target

/-- The three context names under which qudit deallocation is deferred. -/
def isDeferringName (ctx_name : String) : Bool :=
  ctx_name == "observe" || ctx_name == "sample" || ctx_name == "extract-state"

/-- Loop `for (auto &q : contextQuditIdsForDeletion)` of `resetExecutionContext`. -/
def deallocateAll : List Nat → State → State
  | [], s => s
  | q :: rest, s => deallocateAll rest (returnIndex (deallocateQudit s q) q)

def resetExecutionContext (s : State) : State :=
  let s := synchronize s
  let ctx_name : String :=
    match s.executionContext with
    | some ctx => ctx.name
    | none => ""
  let s := handleExecutionContextEnded s
  let s :=
    if isDeferringName ctx_name then
      let s := deallocateAll s.contextQuditIdsForDeletion s
      { s with contextQuditIdsForDeletion := [] }
    else s
  { s with executionContext := none }

def getAvailableIndex (s : State) (quditLevels : Nat) : Option (Nat × State) :=
  match getNextIndex s with
  | none => none
  | some (new_id, s) => some (new_id, allocateQudit s ⟨quditLevels, new_id⟩)

def returnQudit (s : State) (qid : QuditInfo) : State :=
  if s.executionContext.isNone then
    returnIndex (deallocateQudit s qid.id) qid.id
  else
    let ctx_name : String :=
      match s.executionContext with
      | some ctx => ctx.name
      | none => ""
    if s.executionContext.isSome && isDeferringName ctx_name then
      { s with contextQuditIdsForDeletion := s.contextQuditIdsForDeletion ++ [qid.id] }
    else
      let s := returnIndex (deallocateQudit s qid.id) qid.id
      if numAvailable s = totalNumQudits s then
        if s.executionContext.isSome && ctx_name == "observe" then
          { s with instructionQueue := popAll s.instructionQueue }
        else s
      else s

def startAdjointRegion (s : State) : State :=
  { s with adjointQueueStack := [] :: s.adjointQueueStack }

/-- The reversing lambda of `endAdjointRegion`: move every element from the front of the queue
onto a stack, then move every element from the top of the stack to the back of the queue. -/
def reverseQueue (q : List Instruction) : List Instruction :=
  let s : List Instruction := q.foldl (fun s front => front :: s) []
  s.foldl (fun q top => q ++ [top]) []

/-- One round of the final loop of `endAdjointRegion`: the popped front goes to the live queue
when the adjoint stack is empty, else to the back of the queue on top of the stack. -/
def reinject (s : State) (front : Instruction) : State :=
  match s.adjointQueueStack with
  | [] => { s with instructionQueue := s.instructionQueue ++ [front] }
  | top :: below => { s with adjointQueueStack := (top ++ [front]) :: below }

/-- Closing an adjoint region; `none` stands for the undefined behaviour of `top()` and `pop()`
on an empty `std::stack`. -/
def endAdjointRegion (s : State) : Option State :=
  match s.adjointQueueStack with
  | [] => none
  | adjointQueue :: below =>
      let s := { s with adjointQueueStack := below }
      let adjointQueue := reverseQueue adjointQueue
      some (adjointQueue.foldl reinject s)

def startCtrlRegion (s : State) (controls : List Nat) : State :=
  controls.foldl (fun s c => { s with extraControlIds := s.extraControlIds ++ [c] }) s

/-- Closing a control region; `none` stands for the failing `resize` when `n_controls` exceeds
the number of stored ids (the unsigned difference wraps around to a huge size). -/
def endCtrlRegion (s : State) (n_controls : Nat) : Option State :=
  if n_controls ≤ s.extraControlIds.length then
    some { s with extraControlIds :=
                    s.extraControlIds.take (s.extraControlIds.length - n_controls) }
  else none

/-- The parameter loop of `apply`:
`for (i = 0; i < params.size(); i++) mutable_params[i] = -1.0 * params[i];`. -/
def negateParams (params mutable_params : List ℚ) : List ℚ :=
  (List.range params.length).foldl
    (fun mp i => mp.set i ((-1 : ℚ) * params.getD i 0)) mutable_params

/-- The name substitution `apply` performs under adjoint. -/
def adjointName (mutable_name : String) : String :=
  if mutable_name = "t" then "tdg"
  else if mutable_name = "s" then "sdg"
  else mutable_name

def apply (s : State) (gateName : String) (params : List ℚ)
    (controls targets : List QuditInfo) (isAdjoint : Bool := false) : State :=
  let mutable_name : String := gateName
  let mutable_params : List ℚ := params
  let mutable_controls : List QuditInfo :=
    s.extraControlIds.foldl (fun mc e => mc ++ [QuditInfo.mk 2 e]) []
  let mutable_controls : List QuditInfo :=
    controls.foldl (fun mc e => mc ++ [e]) mutable_controls
  let mutable_targets : List QuditInfo :=
    targets.foldl (fun mt t => mt ++ [t]) []
  let adjoint : Bool := isAdjoint || !s.adjointQueueStack.isEmpty
  let mutable_params := if adjoint then negateParams params mutable_params else mutable_params
  let mutable_name := if adjoint then adjointName mutable_name else mutable_name
  let inst : Instruction := ⟨mutable_name, mutable_params, mutable_controls, mutable_targets⟩
  match s.adjointQueueStack with
  | top :: below => { s with adjointQueueStack := (top ++ [inst]) :: below }
  | [] => { s with instructionQueue := s.instructionQueue ++ [inst] }

/-! ## Vocabulary of the statements -/

/-- Arguments of one `apply` call. -/
structure ApplyCall where
  gateName : String
  params : List ℚ
  controls : List QuditInfo
  targets : List QuditInfo
  isAdjoint : Bool := false
  deriving DecidableEq

/-- One `apply` call with the given arguments. -/
def applyCall (s : State) (c : ApplyCall) : State :=
  apply s c.gateName c.params c.controls c.targets c.isAdjoint

/-- The instruction a call asks for, before any rewriting: its own name, parameters, explicit
controls and targets. -/
def ApplyCall.instruction (c : ApplyCall) : Instruction :=
  ⟨c.gateName, c.params, c.controls, c.targets⟩

/-- The adjoint rewrite of `apply` (the body of `if (isAdjoint || !adjointQueueStack.empty())`)
performed on an instruction. -/
def adjointRewrite (inst : Instruction) : Instruction :=
  { inst with params := negateParams inst.params inst.params, name := adjointName inst.name }

/-- The nested adjoint scenario on an empty manager: open region A, apply `X` and `Y`, open
region B, apply `Z`, close B, close A, synchronize. -/
def nestedAdjointRun (X Y Z : ApplyCall) : Option State :=
  let s : State := {}
  let s := startAdjointRegion s
  let s := applyCall s X
  let s := applyCall s Y
  let s := startAdjointRegion s
  let s := applyCall s Z
  match endAdjointRegion s with
  | none => none
  | some s =>
    match endAdjointRegion s with
    | none => none
    | some s => some (synchronize s)

/-- Every instruction the manager holds: the live buffer, then the queues of the adjoint stack
from the top down. -/
def held (s : State) : List Instruction :=
  s.instructionQueue ++ s.adjointQueueStack.flatten

/-- One call of a program that applies gates and opens and closes adjoint regions. -/
inductive RegionCall where
  | apply (c : ApplyCall)
  | startAdjointRegion
  | endAdjointRegion
  deriving DecidableEq

/-- The manager after one such call; `none` when a region is closed while none is open. -/
def runCall (s : State) : RegionCall → Option State
  | RegionCall.apply c => some (applyCall s c)
  | RegionCall.startAdjointRegion => some (startAdjointRegion s)
  | RegionCall.endAdjointRegion => endAdjointRegion s

/-- The manager after a sequence of such calls, made in order. -/
def runCalls : State → List RegionCall → Option State
  | s, [] => some s
  | s, call :: rest =>
      match runCall s call with
      | none => none
      | some s => runCalls s rest

/-- The number of open regions after a sequence of calls that starts with `depth` open regions;
`none` when some `endAdjointRegion` has no open region to close. -/
def nesting : Nat → List RegionCall → Option Nat
  | depth, [] => some depth
  | depth, RegionCall.apply _ :: rest => nesting depth rest
  | depth, RegionCall.startAdjointRegion :: rest => nesting (depth + 1) rest
  | 0, RegionCall.endAdjointRegion :: _ => none
  | depth + 1, RegionCall.endAdjointRegion :: rest => nesting depth rest

/-- The instructions the `apply` calls of a sequence build, in call order, on a manager with an
empty control stack and `depth` regions open at the start: an instruction is rewritten when
`isAdjoint` is set or a region is open at the time of the call. -/
def built : Nat → List RegionCall → List Instruction
  | _, [] => []
  | depth, RegionCall.apply c :: rest =>
      (if c.isAdjoint || decide (0 < depth) then adjointRewrite c.instruction
       else c.instruction) :: built depth rest
  | depth, RegionCall.startAdjointRegion :: rest => built (depth + 1) rest
  | depth, RegionCall.endAdjointRegion :: rest => built (depth - 1) rest

/-- The number of `apply` calls in a sequence. -/
def applyCount (calls : List RegionCall) : Nat :=
  calls.countP (fun call =>
    match call with
    | RegionCall.apply _ => true
    | _ => false)

/-- The instructions passed to `executeInstruction`, in call order. -/
def executed (trace : List Event) : List Instruction :=
  trace.filterMap (fun e =>
    match e with
    | Event.executeInstruction inst => some inst
    | _ => none)

end BasicExecutionManager

/-! ## Counts tables -/

namespace sample_result

/-- Modelled from the spec: record `n` more observations of the pattern `bits`. -/
def addCount : sample_result → String → Nat → sample_result
  | [], bits, n => [(bits, n)]
  | (b, m) :: rest, bits, n =>
      if b = bits then (b, m + n) :: rest else (b, m) :: addCount rest bits n

/-- Modelled from the spec: `counts += other` merges every entry of `other` into the running
counts table. -/
def merge (counts other : sample_result) : sample_result :=
  other.foldl (fun acc e => addCount acc e.1 e.2) counts

/-- Modelled from the spec: `result.clear()` empties the table. -/
def clear (_r : sample_result) : sample_result := []

/-- Modelled from the spec: the total number of observations a counts table represents. -/
def total (r : sample_result) : Nat := (r.map Prod.snd).sum

end sample_result

/-! ## The sampling driver (`sample.h`) -/

namespace details

/-- The closure `KernelExecutionTask` built by `runSamplingAsync`; it captures what the later
`runSampling` call needs. -/
structure KernelExecutionTask where
  qpu_id : Nat
  shots : Int
  kernelName : String
  deriving DecidableEq

/-- Calls `runSampling` and `runSamplingAsync` make on the platform and on the wrapped kernel,
in the order they are made. -/
inductive Call where
  | num_qpus
  | is_remote (qpu_id : Nat)
  | set_exec_ctx (ctx : ExecutionContext) (qpu_id : Nat)
  | set_current_qpu (qpu_id : Nat)
  | supports_conditional_feedback
  | wrappedKernel
  | reset_exec_ctx (qpu_id : Nat)
  | newKernelExecutionTask (task : KernelExecutionTask)
  | enqueueAsyncTask (qpu_id : Nat) (task : KernelExecutionTask)
  deriving DecidableEq

/-- Everything the driver only declares: the `quantum_platform`, the wrapped kernel and
`kernelHasConditionalFeedback`.  The wrapped kernel and `reset_exec_ctx` act on the installed
context (they fill in its result and its future); the natural number is the position of the
call among the calls of its kind in the current run. -/
structure World where
  kernelHasConditionalFeedback : String → Bool
  num_qpus : Nat
  is_remote : Nat → Bool
  supports_conditional_feedback : Nat → Bool
  wrappedKernel : Nat → ExecutionContext → ExecutionContext
  reset_exec_ctx : Nat → ExecutionContext → ExecutionContext
  enqueueAsyncTask : Nat → KernelExecutionTask → future

/-- Conversion `static_cast<unsigned>(shots)` of a 32-bit `int`. -/
def toUnsigned (shots : Int) : Nat := (shots % (2 ^ 32 : Int)).toNat

/-- Subtraction of two `unsigned` values. -/
def unsignedSub (a b : Nat) : Nat := (a + 2 ^ 32 - b % 2 ^ 32) % 2 ^ 32

/-- Modelled from the spec: `cudaq::range` is not part of the sources; `range(shots)` yields
the iteration indices `0, 1, ..., shots - 1` (none when `shots` is not positive). -/
def range (shots : Int) : List Nat := List.range shots.toNat

/-- What `runSampling` leaves behind: the returned optional aggregate, the content of the
caller's future slot (`none` for a null pointer), the context as it is when the function
returns, and the calls made. -/
structure SamplingRun where
  value : Option sample_result
  futureResult : Option future
  ctx : ExecutionContext
  calls : List Call
  deriving DecidableEq

/-- Local state of the emulation loop of `runSampling`. -/
structure LoopState where
  ctx : ExecutionContext
  counts : sample_result
  calls : List Call
  deriving DecidableEq

/-- Body of the loop `for (auto &i : cudaq::range(shots))` of `runSampling`. -/
def shotStep (W : World) (shots : Int) (qpu_id : Nat) (st : LoopState) (i : Nat) : LoopState :=
  let ctx := W.wrappedKernel i st.ctx
  let calls := st.calls ++ [Call.wrappedKernel]
  let ctx := W.reset_exec_ctx i ctx
  let calls := calls ++ [Call.reset_exec_ctx qpu_id]
  let counts := sample_result.merge st.counts ctx.result
  let ctx := { ctx with result := sample_result.clear ctx.result }
  let calls :=
    if i < unsignedSub (toUnsigned shots) 1 then calls ++ [Call.set_exec_ctx ctx qpu_id]
    else calls
  ⟨ctx, counts, calls⟩

/-- The first statements of `runSampling`: create the execution context and record in it the
kernel name, whether the kernel has conditionals on measure results, and whether this is an
asynchronous execution. -/
def createContext (W : World) (kernelName : String) (shots : Int)
    (futureResult : Option future) : ExecutionContext :=
  let ctx : ExecutionContext := { name := "sample", shots := shots }
  let ctx := { ctx with kernelName := kernelName }
  let ctx := { ctx with
    hasConditionalsOnMeasureResults := W.kernelHasConditionalFeedback kernelName }
  { ctx with asyncExec := futureResult.isSome }

def runSampling (W : World) (kernelName : String) (shots : Int) (qpu_id : Nat := 0)
    (futureResult : Option future := none) : SamplingRun :=
  let ctx := createContext W kernelName shots futureResult
  let calls : List Call := [Call.set_exec_ctx ctx qpu_id]
  let calls := calls ++ [Call.set_current_qpu qpu_id]
  let hasCondFeedback := W.supports_conditional_feedback qpu_id
  let calls := calls ++ [Call.supports_conditional_feedback]
  if !ctx.hasConditionalsOnMeasureResults then
    let ctx := W.wrappedKernel 0 ctx
    let calls := calls ++ [Call.wrappedKernel]
    match futureResult with
    | some _ => ⟨none, some ctx.futureResult, ctx, calls⟩
    | none =>
        let ctx := W.reset_exec_ctx 0 ctx
        let calls := calls ++ [Call.reset_exec_ctx qpu_id]
        ⟨some ctx.result, none, ctx, calls⟩
  else if !hasCondFeedback then
    let counts : sample_result := []
    let st := (range shots).foldl (shotStep W shots qpu_id) ⟨ctx, counts, calls⟩
    ⟨some st.counts, futureResult, st.ctx, st.calls⟩
  else
    let ctx := W.wrappedKernel 0 ctx
    let calls := calls ++ [Call.wrappedKernel]
    match futureResult with
    | some _ => ⟨none, some ctx.futureResult, ctx, calls⟩
    | none =>
        let ctx := W.reset_exec_ctx 0 ctx
        let calls := calls ++ [Call.reset_exec_ctx qpu_id]
        ⟨some ctx.result, none, ctx, calls⟩

/-- Result of `runSamplingAsync`: either the `std::invalid_argument` it throws, or the
`async_sample_result` it returns (identified with the future it wraps). -/
inductive AsyncResult where
  | invalid_argument (what : String)
  | async_sample_result (f : future)
  deriving DecidableEq

/-- What `runSamplingAsync` leaves behind: its result and the calls made. -/
structure AsyncRun where
  result : AsyncResult
  calls : List Call
  deriving DecidableEq

def runSamplingAsync (W : World) (kernelName : String) (shots : Int) (qpu_id : Nat := 0) :
    AsyncRun :=
  let calls : List Call := [Call.num_qpus]
  if qpu_id ≥ W.num_qpus then
    ⟨AsyncResult.invalid_argument
      "Provided qpu_id is invalid (must be <= to platform.num_qpus()).", calls⟩
  else
    let calls := calls ++ [Call.is_remote qpu_id]
    if W.is_remote qpu_id then
      let futureResult : future := ⟨0⟩
      let run := runSampling W kernelName shots qpu_id (some futureResult)
      let futureResult := run.futureResult.getD futureResult
      ⟨AsyncResult.async_sample_result futureResult, calls ++ run.calls⟩
    else
      let task : KernelExecutionTask := ⟨qpu_id, shots, kernelName⟩
      let calls := calls ++ [Call.newKernelExecutionTask task]
      let f := W.enqueueAsyncTask qpu_id task
      let calls := calls ++ [Call.enqueueAsyncTask qpu_id task]
      ⟨AsyncResult.async_sample_result f, calls⟩

/-! ## Vocabulary of the statements -/

/-- The context as it is when iteration `k` of the emulation loop starts, given the context
`c0` the loop is entered with: every earlier iteration ran the kernel, reset the context and
cleared the result. -/
def entryCtx (W : World) (c0 : ExecutionContext) : Nat → ExecutionContext
  | 0 => c0
  | k + 1 =>
      let c := W.reset_exec_ctx k (W.wrappedKernel k (entryCtx W c0 k))
      { c with result := sample_result.clear c.result }

/-- The per-iteration context result: what the context holds as its result when iteration `k`
of the emulation loop reads it, right after that iteration's `reset_exec_ctx`. -/
def shotResult (W : World) (c0 : ExecutionContext) (k : Nat) : sample_result :=
  (W.reset_exec_ctx k (W.wrappedKernel k (entryCtx W c0 k))).result

/-- A platform with two QPUs and no native conditional feedback, and a kernel with conditional
feedback: the kernel run stores future 7 in the context, the reset stores one observation,
`0` in even iterations and `1` in odd iterations. -/
def emulatedWorld : World where
  kernelHasConditionalFeedback := fun _ => true
  num_qpus := 2
  is_remote := fun _ => true
  supports_conditional_feedback := fun _ => false
  wrappedKernel := fun _ c => { c with futureResult := ⟨7⟩ }
  reset_exec_ctx := fun k c => { c with result := [(if k % 2 = 0 then "0" else "1", 1)] }
  enqueueAsyncTask := fun _ _ => ⟨1⟩

/-- A platform with native conditional feedback and a kernel with conditional feedback: the
kernel run stores future 7 in the context, the reset stores the aggregate of all shots. -/
def nativeWorld : World where
  kernelHasConditionalFeedback := fun _ => true
  num_qpus := 1
  is_remote := fun _ => false
  supports_conditional_feedback := fun _ => true
  wrappedKernel := fun _ c => { c with futureResult := ⟨7⟩ }
  reset_exec_ctx := fun _ c => { c with result := [("0", 600), ("1", 400)] }
  enqueueAsyncTask := fun _ _ => ⟨1⟩

/-- The number of `set_exec_ctx` calls among the calls made. -/
def installs (calls : List Call) : Nat :=
  calls.countP (fun call =>
    match call with
    | Call.set_exec_ctx _ _ => true
    | _ => false)

/-- The number of `reset_exec_ctx` calls among the calls made. -/
def teardowns (calls : List Call) : Nat :=
  calls.countP (fun call =>
    match call with
    | Call.reset_exec_ctx _ => true
    | _ => false)

end details

/-! ## The argument synthesizer (`QuakeSynthesizer.cpp`) -/

namespace QuakeSynthesizer

/-- The argument types `runOnOperation` tells apart; `unsupported` is any type that reaches the
final `else` branch. -/
inductive ArgType where
  | i1
  | i32
  | i64
  | f32
  | f64
  | stdvec
  | unsupported
  deriving DecidableEq, Repr

/-- The raw runtime arguments `void *args`: the byte stored at each offset. -/
abbrev ArgsBuffer := Nat → Nat

/-- The `n` bytes at `offset`, as `std::memcpy` and the pointer reads see them. -/
def readBytes (args : ArgsBuffer) (offset n : Nat) : List Nat :=
  (List.range n).map (fun i => args (offset + i) % 256)

/-- The read `*(std::size_t *)(((char *)args) + offset)`: eight bytes, least significant
first. -/
def readSizeT (args : ArgsBuffer) (offset : Nat) : Nat :=
  (readBytes args offset 8).foldr (fun b acc => b + 256 * acc) 0

/-- What the pass does with the block arguments, in the order it does it.  A block argument is
named by its position in `funcOp.getArguments()`; data read from the buffer is kept as raw
bytes, together with the offset it was read from. -/
inductive Action where
  | constant (argument : Nat) (type : ArgType) (offset : Nat) (concrete : List Nat)
  | stdvecSize (argument : Nat) (offset : Nat) (vectorSize : Nat)
  | vector (argument : Nat) (offset : Nat) (vec : List (List Nat))
  deriving DecidableEq, Repr

/-- The function `synthesizeRuntimeArgument`: copy `typeSize` bytes at `offset` into the
concrete instance, advance the offset, and replace the uses of the block argument by the
constant made from the concrete instance.  Returns the new offset and the replacement. -/
def synthesizeRuntimeArgument (argument : Nat) (type : ArgType) (args : ArgsBuffer)
    (offset typeSize : Nat) : Nat × Action :=
  let concrete := readBytes args offset typeSize
  let newOffset := offset + typeSize
  (newOffset, Action.constant argument type offset concrete)

/-- The function `synthesizeVectorArgument`: the loads of the element data of the block
argument are replaced by constants taken from `vec`.  The offset only records where the caller
read `vec`. -/
def synthesizeVectorArgument (argument : Nat) (offset : Nat) (vec : List (List Nat)) : Action :=
  Action.vector argument offset vec

/-- Local state of the argument loop of `runOnOperation`. -/
structure LoopState where
  offset : Nat := 0
  stdVecSizes : List Nat := []
  actions : List Action := []
  deriving DecidableEq, Repr

/-- Body of the loop `for (auto &argument : arguments)`; `none` stands for the abort of
`TODO("We cannot synthesize this type of argument yet.")`.  The sizes are those of the LP64
data model: `sizeof(bool) = 1`, `sizeof(int) = 4`, `sizeof(long) = 8`,
`sizeof(std::size_t) = 8`, `sizeof(double) = 8`. -/
def argumentStep (args : ArgsBuffer) (st : LoopState) (argument : Nat) (type : ArgType) :
    Option LoopState :=
  match type with
  | ArgType.i1 =>
      let r := synthesizeRuntimeArgument argument type args st.offset 1
      some { st with offset := r.1, actions := st.actions ++ [r.2] }
  | ArgType.i32 =>
      let r := synthesizeRuntimeArgument argument type args st.offset 4
      some { st with offset := r.1, actions := st.actions ++ [r.2] }
  | ArgType.i64 =>
      let r := synthesizeRuntimeArgument argument type args st.offset 8
      some { st with offset := r.1, actions := st.actions ++ [r.2] }
  | ArgType.f32 =>
      let r := synthesizeRuntimeArgument argument type args st.offset (32 / 8)
      some { st with offset := r.1, actions := st.actions ++ [r.2] }
  | ArgType.f64 =>
      let r := synthesizeRuntimeArgument argument type args st.offset (64 / 8)
      some { st with offset := r.1, actions := st.actions ++ [r.2] }
  | ArgType.stdvec =>
      let vectorSize := readSizeT args st.offset
      let vectorSize := vectorSize / 8
      some { offset := st.offset + 8,
             stdVecSizes := st.stdVecSizes ++ [vectorSize],
             actions := st.actions ++ [Action.stdvecSize argument st.offset vectorSize] }
  | ArgType.unsupported => none

/-- The loop `for (auto &argument : arguments)`, over the arguments paired with their
positions. -/
def argumentLoop (args : ArgsBuffer) : List (Nat × ArgType) → LoopState → Option LoopState
  | [], st => some st
  | (argument, type) :: rest, st =>
      match argumentStep args st argument type with
      | none => none
      | some st => argumentLoop args rest st

/-- Body of the loop `for (std::size_t idx = 0; auto &stdVecSize : stdVecSizes)`: the vector
is read at `offset`, and `arguments[idx++]` is the block argument handed to
`synthesizeVectorArgument`.  The state is `idx` and the actions so far. -/
def vectorStep (args : ArgsBuffer) (offset : Nat) (st : Nat × List Action) (stdVecSize : Nat) :
    Nat × List Action :=
  let idx := st.1
  let v : List (List Nat) :=
    (List.range stdVecSize).map (fun k => readBytes args (offset + 8 * k) 8)
  (idx + 1, st.2 ++ [synthesizeVectorArgument idx offset v])

/-- What `runOnOperation` leaves behind for one kernel function. -/
structure SynthesisRun where
  offset : Nat
  stdVecSizes : List Nat
  actions : List Action
  deriving DecidableEq, Repr

/-- The part of `QuakeSynthesizer::runOnOperation` that works on the kernel function: the
argument loop, then the loop over the recorded vector sizes.  `arguments` lists the types of
the block arguments in order. -/
def runOnOperation (arguments : List ArgType) (args : ArgsBuffer) : Option SynthesisRun :=
  match argumentLoop args ((List.range arguments.length).zip arguments) {} with
  | none => none
  | some st =>
      let r := st.stdVecSizes.foldl (vectorStep args st.offset) (0, st.actions)
      some ⟨st.offset, st.stdVecSizes, r.2⟩

/-! ## Vocabulary of the statements -/

/-- A buffer holding the given bytes from offset 0 on, and zero beyond them. -/
def bufferOf (bytes : List Nat) : ArgsBuffer := fun i => bytes.getD i 0

/-- Positions of the `stdvec` arguments, in increasing order. -/
def stdvecPositions (arguments : List ArgType) : List Nat :=
  ((List.range arguments.length).zip arguments).filterMap
    (fun p => if p.2 = ArgType.stdvec then some p.1 else none)

/-- The `vector` actions of a run, as pairs of the block argument and the offset the vector
was read from. -/
def vectorTargets (actions : List Action) : List (Nat × Nat) :=
  actions.filterMap (fun a =>
    match a with
    | Action.vector argument offset _ => some (argument, offset)
    | _ => none)

/-- The number of bytes an argument of the given type occupies among the argument slots: one
for `i1`, four for `i32` and `f32`, eight for `i64` and `f64`, and eight for the size slot of a
`stdvec`. -/
def slotSize : ArgType → Nat
  | ArgType.i1 => 1
  | ArgType.i32 => 4
  | ArgType.i64 => 8
  | ArgType.f32 => 4
  | ArgType.f64 => 8
  | ArgType.stdvec => 8
  | ArgType.unsupported => 0

/-- The sum of the slot sizes of the arguments before position `k`. -/
def slotOffset (arguments : List ArgType) (k : Nat) : Nat :=
  ((arguments.take k).map slotSize).sum

/-- What the argument loop is to do for the argument at position `k` whose slot starts at
`offset`: for a `stdvec`, record the stored byte size divided by 8; for a scalar, substitute
the constant made from the bytes of its slot. -/
def slotAction (args : ArgsBuffer) (k : Nat) (type : ArgType) (offset : Nat) : Action :=
  match type with
  | ArgType.stdvec => Action.stdvecSize k offset (readSizeT args offset / 8)
  | type => Action.constant k type offset (readBytes args offset (slotSize type))

end QuakeSynthesizer

end cudaq

/-! # Theorems -/

namespace cudaq

/-! ## The execution manager -/

namespace BasicExecutionManager

theorem foldl_push_back {α β : Type} (f : α → β) (l : List α) (init : List β) :
    l.foldl (fun acc e => acc ++ [f e]) init = init ++ l.map f := by
  induction l generalizing init with
  | nil => simp
  | cons x xs ih => simp [ih]

theorem negateLoop (params : List ℚ) :
    ∀ n, n ≤ params.length → ∀ mp : List ℚ, mp.length = params.length →
      (List.range n).foldl (fun mp i => mp.set i ((-1 : ℚ) * params.getD i 0)) mp
        = (params.take n).map (fun p => -p) ++ mp.drop n := by
  intro n
  induction n with
  | zero => intro _ mp _; simp
  | succ n ih =>
    intro h mp hmp
    have hn : n < params.length := by omega
    have hm : n < mp.length := by omega
    rw [List.range_succ, List.foldl_append, ih (by omega) mp hmp]
    simp only [List.foldl_cons, List.foldl_nil]
    rw [List.set_append_right _ _ (by simp [Nat.min_eq_left (Nat.le_of_lt hn)])]
    have hl : (List.map (fun p : ℚ => -p) (List.take n params)).length = n := by
      simp [Nat.min_eq_left (Nat.le_of_lt hn)]
    rw [hl, Nat.sub_self, List.drop_eq_getElem_cons hm, List.set_cons_zero,
      List.getD_eq_getElem _ _ hn, List.take_succ (n := n) (l := params)]
    simp only [List.map_append, List.getElem?_eq_getElem hn, Option.toList_some, List.map_cons,
      List.map_nil, List.append_assoc, List.singleton_append, neg_mul, one_mul]

theorem negateParams_eq (params : List ℚ) :
    negateParams params params = params.map (fun p => -p) := by
  unfold negateParams
  rw [negateLoop params params.length (Nat.le_refl _) params rfl]
  simp

theorem apply_eq (s : State) (gateName : String) (params : List ℚ)
    (controls targets : List QuditInfo) (isAdjoint : Bool) :
    apply s gateName params controls targets isAdjoint =
      (match s.adjointQueueStack with
       | top :: below =>
          { s with adjointQueueStack :=
              (top ++ [⟨adjointName gateName, params.map (fun p => -p),
                        s.extraControlIds.map (QuditInfo.mk 2) ++ controls, targets⟩]) :: below }
       | [] =>
          { s with instructionQueue := s.instructionQueue ++
              [⟨if isAdjoint then adjointName gateName else gateName,
                if isAdjoint then params.map (fun p => -p) else params,
                s.extraControlIds.map (QuditInfo.mk 2) ++ controls, targets⟩] }) := by
  unfold apply
  cases hst : s.adjointQueueStack with
  | nil =>
    cases isAdjoint <;> simp [foldl_push_back, negateParams_eq]
  | cons top below =>
    cases isAdjoint <;> simp [foldl_push_back, negateParams_eq]

theorem synchronizeLoop_eq (q : List Instruction) (s : State) :
    synchronizeLoop q s =
      { s with instructionQueue := [],
               trace := s.trace ++ q.map Event.executeInstruction } := by
  induction q generalizing s with
  | nil => simp [synchronizeLoop]
  | cons i rest ih => simp [synchronizeLoop, ih, executeInstruction]

theorem synchronize_eq (s : State) :
    synchronize s =
      { s with instructionQueue := [],
               trace := s.trace ++ s.instructionQueue.map Event.executeInstruction } := by
  simp [synchronize, synchronizeLoop_eq]

theorem reverseQueue_eq (q : List Instruction) : reverseQueue q = q.reverse := by
  have h1 : ∀ (l acc : List Instruction),
      l.foldl (fun s front => front :: s) acc = l.reverse ++ acc := by
    intro l
    induction l with
    | nil => simp
    | cons x xs ih => intro acc; simp [ih]
  have h2 := foldl_push_back (fun e : Instruction => e)
  simp only [List.map_id_fun, id_eq, List.map_id] at h2
  simp [reverseQueue, h1, h2]

theorem foldl_reinject_nil (l : List Instruction) (s : State) (h : s.adjointQueueStack = []) :
    l.foldl reinject s = { s with instructionQueue := s.instructionQueue ++ l } := by
  induction l generalizing s with
  | nil => simp
  | cons x xs ih =>
    have hx : reinject s x = { s with instructionQueue := s.instructionQueue ++ [x] } := by
      simp [reinject, h]
    rw [List.foldl_cons, hx, ih _ (by simpa using h)]
    simp

theorem foldl_reinject_cons (l : List Instruction) (s : State) (top : List Instruction)
    (below : List (List Instruction)) (h : s.adjointQueueStack = top :: below) :
    l.foldl reinject s = { s with adjointQueueStack := (top ++ l) :: below } := by
  induction l generalizing s top with
  | nil => cases s; simp_all
  | cons x xs ih =>
    have hx : reinject s x = { s with adjointQueueStack := (top ++ [x]) :: below } := by
      simp [reinject, h]
    rw [List.foldl_cons, hx, ih _ (top ++ [x]) (by simp)]
    simp

theorem endAdjointRegion_outer (s : State) (q : List Instruction)
    (h : s.adjointQueueStack = [q]) :
    endAdjointRegion s =
      some { s with adjointQueueStack := [],
                    instructionQueue := s.instructionQueue ++ q.reverse } := by
  simp only [endAdjointRegion, h, reverseQueue_eq]
  rw [foldl_reinject_nil _ _ rfl]

theorem endAdjointRegion_nested (s : State) (q parent : List Instruction)
    (rest : List (List Instruction)) (h : s.adjointQueueStack = q :: parent :: rest) :
    endAdjointRegion s =
      some { s with adjointQueueStack := (parent ++ q.reverse) :: rest } := by
  simp only [endAdjointRegion, h, reverseQueue_eq]
  rw [foldl_reinject_cons _ _ parent rest rfl]

theorem deallocateAll_eq (ids : List Nat) (s : State) :
    deallocateAll ids s =
      { s with availableIndices := ids.reverse ++ s.availableIndices,
               trace := s.trace ++
                 ids.flatMap (fun q => [Event.deallocateQudit q, Event.returnIndex q]) } := by
  induction ids generalizing s with
  | nil => simp [deallocateAll]
  | cons q rest ih => simp [deallocateAll, ih, returnIndex, deallocateQudit]

theorem startCtrlRegion_eq (s : State) (controls : List Nat) :
    startCtrlRegion s controls =
      { s with extraControlIds := s.extraControlIds ++ controls } := by
  unfold startCtrlRegion
  induction controls generalizing s with
  | nil => simp
  | cons c cs ih => simp [ih]

theorem foldl_applyCall_live (calls : List ApplyCall) (s : State)
    (hadj : s.adjointQueueStack = []) :
    calls.foldl applyCall s =
      { s with instructionQueue := s.instructionQueue ++ calls.map (fun c =>
          (⟨if c.isAdjoint then adjointName c.gateName else c.gateName,
            if c.isAdjoint then c.params.map (fun p => -p) else c.params,
            s.extraControlIds.map (QuditInfo.mk 2) ++ c.controls, c.targets⟩ : Instruction)) } := by
  induction calls generalizing s with
  | nil => simp
  | cons c cs ih =>
    rw [List.foldl_cons]
    have hc : applyCall s c = { s with instructionQueue := s.instructionQueue ++
        [(⟨if c.isAdjoint then adjointName c.gateName else c.gateName,
            if c.isAdjoint then c.params.map (fun p => -p) else c.params,
            s.extraControlIds.map (QuditInfo.mk 2) ++ c.controls, c.targets⟩ : Instruction)] } := by
      rw [applyCall, apply_eq, hadj]
    rw [hc, ih _ (by simpa using hadj)]
    simp

/-- C1. Starting from an empty live buffer with no adjoint region open, a sequence of `apply`
calls buffers one instruction per call in call order, and `synchronize` then calls
`executeInstruction` exactly once per buffered instruction, in enqueue order, and leaves the
live buffer empty. -/
theorem synchronize_fifo (s : State) (calls : List ApplyCall)
    (hadj : s.adjointQueueStack = []) (hq : s.instructionQueue = []) :
    (calls.foldl applyCall s).instructionQueue = calls.map (fun c =>
        (⟨if c.isAdjoint then adjointName c.gateName else c.gateName,
          if c.isAdjoint then c.params.map (fun p => -p) else c.params,
          s.extraControlIds.map (QuditInfo.mk 2) ++ c.controls, c.targets⟩ : Instruction)) ∧
    (synchronize (calls.foldl applyCall s)).trace =
      s.trace ++ (calls.foldl applyCall s).instructionQueue.map Event.executeInstruction ∧
    (synchronize (calls.foldl applyCall s)).instructionQueue = [] := by
  rw [foldl_applyCall_live calls s hadj, synchronize_eq]
  simp [hq]

/-- C1, instance: three calls on an empty manager are executed in the order they were made. -/
theorem synchronize_fifo_witness :
    (synchronize ([(⟨"h", [], [], [⟨2, 0⟩], false⟩ : ApplyCall), ⟨"x", [], [⟨2, 0⟩], [⟨2, 1⟩], false⟩,
        ⟨"rz", [3], [], [⟨2, 1⟩], false⟩].foldl applyCall {})).trace =
      [Event.executeInstruction ⟨"h", [], [], [⟨2, 0⟩]⟩,
       Event.executeInstruction ⟨"x", [], [⟨2, 0⟩], [⟨2, 1⟩]⟩,
       Event.executeInstruction ⟨"rz", [3], [], [⟨2, 1⟩]⟩] := by
  have h := synchronize_fifo {} [(⟨"h", [], [], [⟨2, 0⟩], false⟩ : ApplyCall),
    ⟨"x", [], [⟨2, 0⟩], [⟨2, 1⟩], false⟩, ⟨"rz", [3], [], [⟨2, 1⟩], false⟩] rfl rfl
  rw [h.2.1, h.1]
  simp

/-- C2. When `isAdjoint` is set or an adjoint region is open, the instruction `apply` enqueues
has every parameter negated (same length, same order) and the name `tdg` for `t`, `sdg` for `s`
and the given name for every name outside `t`, `s`, `tdg`, `sdg`; when `isAdjoint` is not set
and no adjoint region is open, name and parameters are enqueued unchanged. -/
theorem apply_adjoint_rewrite (s : State) (gateName : String) (params : List ℚ)
    (controls targets : List QuditInfo) (isAdjoint : Bool) :
    ∃ inst : Instruction,
      (s.adjointQueueStack = [] →
        (apply s gateName params controls targets isAdjoint).instructionQueue =
          s.instructionQueue ++ [inst]) ∧
      (∀ top below, s.adjointQueueStack = top :: below →
        (apply s gateName params controls targets isAdjoint).adjointQueueStack =
          (top ++ [inst]) :: below) ∧
      ((isAdjoint = true ∨ s.adjointQueueStack ≠ []) →
        inst.params = params.map (fun p => -p) ∧
        inst.params.length = params.length ∧
        (gateName = "t" → inst.name = "tdg") ∧
        (gateName = "s" → inst.name = "sdg") ∧
        (gateName ≠ "t" → gateName ≠ "s" → gateName ≠ "tdg" → gateName ≠ "sdg" →
          inst.name = gateName)) ∧
      ((isAdjoint = false ∧ s.adjointQueueStack = []) →
        inst.name = gateName ∧ inst.params = params) := by
  rw [apply_eq]
  cases hst : s.adjointQueueStack with
  | nil =>
    refine ⟨⟨if isAdjoint then adjointName gateName else gateName,
      if isAdjoint then params.map (fun p => -p) else params,
      s.extraControlIds.map (QuditInfo.mk 2) ++ controls, targets⟩, ?_, ?_, ?_, ?_⟩
    · intro _; rfl
    · intro top below h; cases h
    · intro h
      have ha : isAdjoint = true := by
        rcases h with h | h
        · exact h
        · exact absurd rfl h
      subst ha
      refine ⟨by simp, by simp, ?_, ?_, ?_⟩
      · intro h; simp [adjointName, h]
      · intro h; simp [adjointName, h]
      · intro h1 h2 _ _; simp [adjointName, h1, h2]
    · rintro ⟨ha, _⟩
      subst ha
      simp
  | cons top below =>
    refine ⟨⟨adjointName gateName, params.map (fun p => -p),
      s.extraControlIds.map (QuditInfo.mk 2) ++ controls, targets⟩, ?_, ?_, ?_, ?_⟩
    · intro h; cases h
    · intro top1 below1 h
      cases h
      rfl
    · intro _
      refine ⟨rfl, by simp, ?_, ?_, ?_⟩
      · intro h; simp [adjointName, h]
      · intro h; simp [adjointName, h]
      · intro h1 h2 _ _; simp [adjointName, h1, h2]
    · rintro ⟨_, h⟩
      cases h

/-- C2, instance: `t` with one parameter inside one adjoint region is buffered as `tdg` with
the parameter negated. -/
theorem apply_adjoint_rewrite_witness :
    ∃ inst : Instruction,
      (apply (startAdjointRegion {}) "t" [1 / 2] [] [⟨2, 0⟩] false).adjointQueueStack = [[inst]] ∧
      inst.name = "tdg" ∧ inst.params = [-(1 / 2)] := by
  obtain ⟨inst, _, h2, h3, _⟩ :=
    apply_adjoint_rewrite (startAdjointRegion {}) "t" [1 / 2] [] [⟨2, 0⟩] false
  refine ⟨inst, ?_, ?_, ?_⟩
  · simpa using h2 [] [] rfl
  · exact (h3 (Or.inr (by simp [startAdjointRegion]))).2.2.1 rfl
  · simpa using (h3 (Or.inr (by simp [startAdjointRegion]))).1

theorem adjointRewrite_eq (inst : Instruction) :
    adjointRewrite inst =
      ⟨adjointName inst.name, inst.params.map (fun p => -p), inst.controls, inst.targets⟩ := by
  simp [adjointRewrite, negateParams_eq]

theorem nestedAdjointRun_eq (X Y Z : ApplyCall) :
    nestedAdjointRun X Y Z =
      some { trace := [Event.executeInstruction (adjointRewrite Z.instruction),
                       Event.executeInstruction (adjointRewrite Y.instruction),
                       Event.executeInstruction (adjointRewrite X.instruction)] } := by
  simp only [nestedAdjointRun, applyCall, startAdjointRegion, apply_eq]
  rw [endAdjointRegion_nested _ _ _ _ rfl]
  simp only []
  rw [endAdjointRegion_outer _ _ rfl]
  simp [synchronize_eq, adjointRewrite_eq, ApplyCall.instruction]

/-- C3, as stated, fails: with `Z = ry(1)` nested two regions deep, the flushed instruction is
`ry(-1)` (one rewrite), not `ry(1)` (two rewrites). -/
theorem nested_adjoint_twice_counterexample :
    ¬ ((nestedAdjointRun ⟨"h", [], [], [⟨2, 0⟩], false⟩ ⟨"rx", [1], [], [⟨2, 0⟩], false⟩
          ⟨"ry", [1], [], [⟨2, 0⟩], false⟩).map (fun s => s.trace) =
        some [Event.executeInstruction
                (adjointRewrite (adjointRewrite
                  (ApplyCall.instruction ⟨"ry", [1], [], [⟨2, 0⟩], false⟩))),
              Event.executeInstruction
                (adjointRewrite (ApplyCall.instruction ⟨"rx", [1], [], [⟨2, 0⟩], false⟩)),
              Event.executeInstruction
                (adjointRewrite (ApplyCall.instruction ⟨"h", [], [], [⟨2, 0⟩], false⟩))]) := by
  rw [nestedAdjointRun_eq]
  simp [adjointRewrite_eq, ApplyCall.instruction]
  norm_num

/-- C3, amended. The nested adjoint scenario on an empty manager executes exactly three
instructions, in the order `Z`, `Y`, `X`, each with the adjoint rewrite applied exactly once
(also `Z`, which sits two regions deep), and leaves the live buffer and the adjoint stack
empty. -/
theorem nested_adjoint_once (X Y Z : ApplyCall) :
    ∃ s : State, nestedAdjointRun X Y Z = some s ∧
      s.trace = [Event.executeInstruction (adjointRewrite Z.instruction),
                 Event.executeInstruction (adjointRewrite Y.instruction),
                 Event.executeInstruction (adjointRewrite X.instruction)] ∧
      s.instructionQueue = [] ∧ s.adjointQueueStack = [] := by
  rw [nestedAdjointRun_eq]
  exact ⟨_, rfl, rfl, rfl, rfl⟩

/-- C4. Whatever the control-scope stack (built by `startCtrlRegion`, in push order) and the
explicit controls, the instruction `apply` enqueues has as controls the stacked ids as 2-level
qudits followed by the explicit controls in order, and as targets the targets argument. -/
theorem apply_controls (s : State) (ids : List Nat) (gateName : String) (params : List ℚ)
    (controls targets : List QuditInfo) (isAdjoint : Bool) :
    (startCtrlRegion s ids).extraControlIds = s.extraControlIds ++ ids ∧
    ∃ inst : Instruction,
      (s.adjointQueueStack = [] →
        (apply (startCtrlRegion s ids) gateName params controls targets isAdjoint).instructionQueue
          = s.instructionQueue ++ [inst]) ∧
      (∀ top below, s.adjointQueueStack = top :: below →
        (apply (startCtrlRegion s ids) gateName params controls targets isAdjoint).adjointQueueStack
          = (top ++ [inst]) :: below) ∧
      inst.controls = (s.extraControlIds ++ ids).map (fun c => (⟨2, c⟩ : QuditInfo)) ++ controls ∧
      inst.targets = targets := by
  rw [apply_eq, startCtrlRegion_eq]
  refine ⟨rfl, ?_⟩
  cases hst : s.adjointQueueStack with
  | nil =>
    refine ⟨⟨if isAdjoint then adjointName gateName else gateName,
      if isAdjoint then params.map (fun p => -p) else params,
      (s.extraControlIds ++ ids).map (QuditInfo.mk 2) ++ controls, targets⟩, ?_, ?_, rfl, rfl⟩
    · intro _; simp [hst]
    · intro top below h; cases h
  | cons top below =>
    refine ⟨⟨adjointName gateName, params.map (fun p => -p),
      (s.extraControlIds ++ ids).map (QuditInfo.mk 2) ++ controls, targets⟩, ?_, ?_, rfl, rfl⟩
    · intro h; cases h
    · intro top1 below1 h
      cases h
      simp [hst]

/-- C4, instance: after `startCtrlRegion([5,7])` on an empty manager, `apply(G, [], [], [t])`
buffers one instruction with controls `[{2,5},{2,7}]` and target `t`. -/
theorem apply_controls_witness :
    ∃ inst : Instruction,
      (apply (startCtrlRegion {} [5, 7]) "x" [] [] [⟨2, 0⟩] false).instructionQueue = [inst] ∧
      inst.controls = [⟨2, 5⟩, ⟨2, 7⟩] ∧ inst.targets = [⟨2, 0⟩] := by
  obtain ⟨_, inst, h1, _, h3, h4⟩ := apply_controls {} [5, 7] "x" [] [] [⟨2, 0⟩] false
  exact ⟨inst, by simpa using h1 rfl, by simpa using h3, h4⟩

theorem resetExecutionContext_trace (s : State) :
    (resetExecutionContext s).trace =
      s.trace ++ s.instructionQueue.map Event.executeInstruction ++
        [Event.handleExecutionContextEnded] ++
        (match s.executionContext with
         | some ctx =>
            if ctx.name = "sample" ∨ ctx.name = "observe" ∨ ctx.name = "extract-state" then
              s.contextQuditIdsForDeletion.flatMap
                (fun q => [Event.deallocateQudit q, Event.returnIndex q])
            else []
         | none => []) := by
  unfold resetExecutionContext
  simp only [synchronize_eq, handleExecutionContextEnded, deallocateAll_eq]
  cases hc : s.executionContext with
  | none => simp [isDeferringName]
  | some ctx =>
    by_cases h : ctx.name = "sample" ∨ ctx.name = "observe" ∨ ctx.name = "extract-state"
    · have hd : isDeferringName ctx.name = true := by
        simp only [isDeferringName, Bool.or_eq_true, beq_iff_eq]; tauto
      simp [hd, h]
    · have hd : isDeferringName ctx.name = false := by
        rw [← Bool.not_eq_true]
        simp only [isDeferringName, Bool.or_eq_true, beq_iff_eq]; tauto
      simp [hd, h]

theorem returnQudit_deferred (s : State) (ctx : ExecutionContext) (qid : QuditInfo)
    (hc : s.executionContext = some ctx)
    (hn : ctx.name = "sample" ∨ ctx.name = "observe" ∨ ctx.name = "extract-state") :
    returnQudit s qid =
      { s with contextQuditIdsForDeletion := s.contextQuditIdsForDeletion ++ [qid.id] } := by
  have hd : isDeferringName ctx.name = true := by
    simp only [isDeferringName, Bool.or_eq_true, beq_iff_eq]; tauto
  simp [returnQudit, hc, hd]

theorem returnQudit_no_context (s : State) (qid : QuditInfo) (hc : s.executionContext = none) :
    returnQudit s qid =
      { s with availableIndices := qid.id :: s.availableIndices,
               trace := s.trace ++ [Event.deallocateQudit qid.id, Event.returnIndex qid.id] } := by
  simp [returnQudit, hc, returnIndex, deallocateQudit]

/-- C5. Under a context named `sample`, `observe` or `extract-state`, `returnQudit(q)` calls
neither `deallocateQudit` nor `returnIndex` (the trace and the pool are unchanged) and appends
`q.id` to the deferred list; the `deallocateQudit(q.id)` call is made by the next
`resetExecutionContext()`, after the context-ended notification.  With no context,
`returnQudit(q)` calls `deallocateQudit(q.id)` and `returnIndex(q.id)` at once and leaves the
deferred list unchanged. -/
theorem returnQudit_deferral (s : State) (qid : QuditInfo) :
    (∀ ctx, s.executionContext = some ctx →
      (ctx.name = "sample" ∨ ctx.name = "observe" ∨ ctx.name = "extract-state") →
        (returnQudit s qid).trace = s.trace ∧
        (returnQudit s qid).availableIndices = s.availableIndices ∧
        (returnQudit s qid).contextQuditIdsForDeletion =
          s.contextQuditIdsForDeletion ++ [qid.id] ∧
        (resetExecutionContext (returnQudit s qid)).trace =
          s.trace ++ s.instructionQueue.map Event.executeInstruction ++
            [Event.handleExecutionContextEnded] ++
            (s.contextQuditIdsForDeletion ++ [qid.id]).flatMap
              (fun q => [Event.deallocateQudit q, Event.returnIndex q])) ∧
    (s.executionContext = none →
        (returnQudit s qid).trace =
          s.trace ++ [Event.deallocateQudit qid.id, Event.returnIndex qid.id] ∧
        (returnQudit s qid).availableIndices = qid.id :: s.availableIndices ∧
        (returnQudit s qid).contextQuditIdsForDeletion = s.contextQuditIdsForDeletion) := by
  constructor
  · intro ctx hc hn
    rw [resetExecutionContext_trace, returnQudit_deferred s ctx qid hc hn]
    simp [hc, hn]
  · intro hc
    rw [returnQudit_no_context s qid hc]
    simp

/-- C5, instance: qudit 3 returned under a `sample` context is deallocated only by the reset;
returned with no context it is deallocated at once. -/
theorem returnQudit_deferral_witness :
    ((returnQudit { executionContext := some { name := "sample", shots := 10 } } ⟨2, 3⟩).trace = [] ∧
      (resetExecutionContext
        (returnQudit { executionContext := some { name := "sample", shots := 10 } } ⟨2, 3⟩)).trace =
        [Event.handleExecutionContextEnded, Event.deallocateQudit 3, Event.returnIndex 3]) ∧
    (returnQudit {} ⟨2, 3⟩).trace = [Event.deallocateQudit 3, Event.returnIndex 3] := by
  have h1 := (returnQudit_deferral
    { executionContext := some { name := "sample", shots := 10 } } ⟨2, 3⟩).1
      { name := "sample", shots := 10 } rfl (Or.inl rfl)
  have h2 := (returnQudit_deferral {} ⟨2, 3⟩).2 rfl
  refine ⟨⟨h1.1, ?_⟩, ?_⟩
  · simpa using h1.2.2.2
  · simpa using h2.1

/-- C6. `resetExecutionContext()` performs, in this order: `executeInstruction` for every
instruction of the live buffer, front first; one `handleExecutionContextEnded`; then, exactly
when the context is named `sample`, `observe` or `extract-state`, for each deferred id in list
order `deallocateQudit(id)` followed by `returnIndex(id)`; under any other name, or with no
context, nothing follows the notification. -/
theorem resetExecutionContext_order (s : State) :
    (resetExecutionContext s).trace =
      s.trace ++ s.instructionQueue.map Event.executeInstruction ++
        [Event.handleExecutionContextEnded] ++
        (match s.executionContext with
         | some ctx =>
            if ctx.name = "sample" ∨ ctx.name = "observe" ∨ ctx.name = "extract-state" then
              s.contextQuditIdsForDeletion.flatMap
                (fun q => [Event.deallocateQudit q, Event.returnIndex q])
            else []
         | none => []) :=
  resetExecutionContext_trace s

/-- C7. `measure(target)` first executes every instruction of the live buffer in FIFO order and
leaves the buffer empty, then calls `measureQudit(target)` once, and returns the value that
call returned. -/
theorem measure_flushes_first (ex : Executor) (s : State) (target : QuditInfo) :
    (measure ex s target).2.trace =
      s.trace ++ s.instructionQueue.map Event.executeInstruction ++ [Event.measureQudit target] ∧
    (measure ex s target).2.instructionQueue = [] ∧
    (measure ex s target).1 =
      ex.measureQudit (s.trace ++ s.instructionQueue.map Event.executeInstruction) target := by
  simp [measure, measureQudit, synchronize_eq]

theorem popAll_eq (q : List Instruction) : popAll q = [] := by
  induction q with
  | nil => rfl
  | cons _ rest ih => simpa [popAll] using ih

/-- C12. After `setExecutionContext(ctx)` the attached context is `ctx`, the only hook call made
is one `handleExecutionContextChanged` (so no discarded instruction was passed to
`executeInstruction`), and the live instruction buffer is empty. -/
theorem setExecutionContext_discards (s : State) (ctx : Option ExecutionContext) :
    (setExecutionContext s ctx).executionContext = ctx ∧
    (setExecutionContext s ctx).trace = s.trace ++ [Event.handleExecutionContextChanged] ∧
    (setExecutionContext s ctx).instructionQueue = [] := by
  simp [setExecutionContext, handleExecutionContextChanged, popAll_eq]

theorem returnQudit_queue (s : State) (qid : QuditInfo) :
    (returnQudit s qid).instructionQueue = s.instructionQueue := by
  unfold returnQudit
  cases hc : s.executionContext with
  | none => simp [returnIndex, deallocateQudit]
  | some ctx =>
    by_cases hd : isDeferringName ctx.name = true
    · simp [hd]
    · have hobs : (ctx.name == "observe") = false := by
        cases ho : (ctx.name == "observe") with
        | false => rfl
        | true => exact absurd (by simp [isDeferringName, ho]) hd
      simp only [Option.isNone_some, Option.isSome_some, Bool.true_and, hd, hobs]
      simp only [returnIndex, deallocateQudit, hc]
      split <;> simp

/-- C13, the failing input: on a manager with a pool of one qudit, under an `observe` context,
qudit 0 is allocated, `h` is applied to it and the qudit is returned.  The return is deferred:
the pool is not drained, nothing is deallocated, and the pending `h` stays in the live buffer
instead of being discarded. -/
theorem returnQudit_observe_keeps_buffer :
    ∃ s : State,
      getAvailableIndex
        (setExecutionContext { availableIndices := [0], totalQudits := 1 }
          (some { name := "observe", shots := 1 })) 2 = some (0, s) ∧
      (returnQudit (apply s "h" [] [] [⟨2, 0⟩] false) ⟨2, 0⟩).instructionQueue =
        [⟨"h", [], [], [⟨2, 0⟩]⟩] ∧
      numAvailable (returnQudit (apply s "h" [] [] [⟨2, 0⟩] false) ⟨2, 0⟩) = 0 ∧
      totalNumQudits (returnQudit (apply s "h" [] [] [⟨2, 0⟩] false) ⟨2, 0⟩) = 1 ∧
      (returnQudit (apply s "h" [] [] [⟨2, 0⟩] false) ⟨2, 0⟩).contextQuditIdsForDeletion = [0] ∧
      (returnQudit (apply s "h" [] [] [⟨2, 0⟩] false) ⟨2, 0⟩).trace =
        [Event.handleExecutionContextChanged, Event.allocateQudit ⟨2, 0⟩] := by
  refine ⟨_, rfl, ?_, ?_, ?_, ?_, ?_⟩ <;> decide

/-- C14, as stated, fails: the substitution leaves `tdg` and `sdg` as they are, so applying it
twice to `t` gives `tdg`, not `t`, and applying it twice to `s` gives `sdg`. -/
theorem adjointName_involution_counterexample :
    adjointName "tdg" ≠ "t" ∧ adjointName "sdg" ≠ "s" ∧
    adjointName (adjointName "t") ≠ "t" ∧ adjointName (adjointName "s") ≠ "s" := by
  decide

/-- C14, amended. The substitution maps `t` to `tdg` and `s` to `sdg` and leaves every other
name unchanged, `tdg` and `sdg` included; applying it twice is the same as applying it once,
and returns the original name for every name other than `t` and `s`. -/
theorem adjointName_one_way (gateName : String) :
    adjointName "t" = "tdg" ∧ adjointName "s" = "sdg" ∧
    adjointName "tdg" = "tdg" ∧ adjointName "sdg" = "sdg" ∧
    adjointName (adjointName gateName) = adjointName gateName ∧
    (gateName ≠ "t" → gateName ≠ "s" →
      adjointName gateName = gateName ∧ adjointName (adjointName gateName) = gateName) := by
  refine ⟨by decide, by decide, by decide, by decide, ?_, ?_⟩
  · by_cases h1 : gateName = "t"
    · subst h1; decide
    · by_cases h2 : gateName = "s"
      · subst h2; decide
      · simp [adjointName, h1, h2]
  · intro h1 h2
    simp [adjointName, h1, h2]

/-- C14, instance: `h` is left unchanged by one and by two substitutions. -/
theorem adjointName_one_way_witness :
    adjointName "h" = "h" ∧ adjointName (adjointName "h") = "h" :=
  (adjointName_one_way "h").2.2.2.2.2 (by decide) (by decide)

theorem endCtrlRegion_eq (s : State) (n : Nat) (h : n ≤ s.extraControlIds.length) :
    endCtrlRegion s n =
      some { s with extraControlIds :=
                      s.extraControlIds.take (s.extraControlIds.length - n) } := by
  simp [endCtrlRegion, h]

/-- C15. `startCtrlRegion(ids)` followed by `endCtrlRegion(|ids|)` restores the manager, control
stack included; for every `n` not above the stack size, `endCtrlRegion(n)` keeps exactly the
first `|S| - n` ids in their order, whatever their values; and two nested `startCtrlRegion`
calls stack their ids one after the other. -/
theorem ctrlRegion_round_trip (s : State) (ids a b : List Nat) (n : Nat) :
    endCtrlRegion (startCtrlRegion s ids) ids.length = some s ∧
    (n ≤ s.extraControlIds.length →
      endCtrlRegion s n =
        some { s with extraControlIds :=
                        s.extraControlIds.take (s.extraControlIds.length - n) }) ∧
    (startCtrlRegion (startCtrlRegion s a) b).extraControlIds =
      s.extraControlIds ++ a ++ b := by
  refine ⟨?_, endCtrlRegion_eq s n, ?_⟩
  · rw [startCtrlRegion_eq, endCtrlRegion_eq _ _ (by simp)]
    simp
  · simp [startCtrlRegion_eq]

/-- C15, instance: popping two of the three ids `[4, 5, 5]` keeps `[4]`. -/
theorem ctrlRegion_round_trip_witness :
    endCtrlRegion { extraControlIds := [4, 5, 5] } 2 = some { extraControlIds := [4] } := by
  have h := (ctrlRegion_round_trip { extraControlIds := [4, 5, 5] } [] [] [] 2).2.1 (by decide)
  simpa using h

/-- C16. With the queue `q` on top of the adjoint stack, `endAdjointRegion` pops `q` and appends
its exact reversal after the contents of the new top queue when there is one, and after the
contents of the live buffer otherwise; the queues further down, and everything else, stay as
they are. -/
theorem endAdjointRegion_reverses (s : State) (q : List Instruction)
    (below : List (List Instruction)) (h : s.adjointQueueStack = q :: below) :
    (below = [] →
      endAdjointRegion s =
        some { s with adjointQueueStack := [],
                      instructionQueue := s.instructionQueue ++ q.reverse }) ∧
    (∀ parent rest, below = parent :: rest →
      endAdjointRegion s =
        some { s with adjointQueueStack := (parent ++ q.reverse) :: rest }) := by
  constructor
  · intro hb
    subst hb
    exact endAdjointRegion_outer s q h
  · intro parent rest hb
    subst hb
    exact endAdjointRegion_nested s q parent rest h

/-- C16, instance: closing the inner of two regions moves `[x, y]` as `[y, x]` behind the `h`
already in the outer queue; closing the only region moves it to the live buffer. -/
theorem endAdjointRegion_reverses_witness :
    endAdjointRegion
        { adjointQueueStack :=
            [[⟨"x", [], [], [⟨2, 0⟩]⟩, ⟨"y", [], [], [⟨2, 0⟩]⟩], [⟨"h", [], [], [⟨2, 1⟩]⟩]] } =
      some { adjointQueueStack :=
            [[⟨"h", [], [], [⟨2, 1⟩]⟩, ⟨"y", [], [], [⟨2, 0⟩]⟩, ⟨"x", [], [], [⟨2, 0⟩]⟩]] } := by
  have h := (endAdjointRegion_reverses
    { adjointQueueStack :=
        [[⟨"x", [], [], [⟨2, 0⟩]⟩, ⟨"y", [], [], [⟨2, 0⟩]⟩], [⟨"h", [], [], [⟨2, 1⟩]⟩]] }
    [⟨"x", [], [], [⟨2, 0⟩]⟩, ⟨"y", [], [], [⟨2, 0⟩]⟩] [[⟨"h", [], [], [⟨2, 1⟩]⟩]] rfl).2
    [⟨"h", [], [], [⟨2, 1⟩]⟩] [] rfl
  simpa using h

/-- C17. Every `apply` call adds exactly one instruction, at the back of the queue on top of the
adjoint stack when the stack is not empty and at the back of the live buffer otherwise (also
when `isAdjoint` is set with no region open); every other queue, the control stack, the
deferred list, the context, the pool and the hook trace are unchanged. -/
theorem apply_adds_one (s : State) (gateName : String) (params : List ℚ)
    (controls targets : List QuditInfo) (isAdjoint : Bool) :
    ∃ inst : Instruction,
      (s.adjointQueueStack = [] →
        apply s gateName params controls targets isAdjoint =
          { s with instructionQueue := s.instructionQueue ++ [inst] }) ∧
      (∀ top below, s.adjointQueueStack = top :: below →
        apply s gateName params controls targets isAdjoint =
          { s with adjointQueueStack := (top ++ [inst]) :: below }) := by
  rw [apply_eq]
  cases hst : s.adjointQueueStack with
  | nil =>
    refine ⟨⟨if isAdjoint then adjointName gateName else gateName,
      if isAdjoint then params.map (fun p => -p) else params,
      s.extraControlIds.map (QuditInfo.mk 2) ++ controls, targets⟩, ?_, ?_⟩
    · intro _; rfl
    · intro top below h; cases h
  | cons top below =>
    refine ⟨⟨adjointName gateName, params.map (fun p => -p),
      s.extraControlIds.map (QuditInfo.mk 2) ++ controls, targets⟩, ?_, ?_⟩
    · intro h; cases h
    · intro top1 below1 h
      cases h
      rfl

/-- C17, instance: `t` applied with `isAdjoint` set and no region open goes to the back of the
live buffer, as `tdg`. -/
theorem apply_adds_one_witness :
    ∃ inst : Instruction,
      apply { instructionQueue := [⟨"h", [], [], [⟨2, 0⟩]⟩] } "t" [] [] [⟨2, 0⟩] true =
        { instructionQueue := [⟨"h", [], [], [⟨2, 0⟩]⟩, inst] } := by
  obtain ⟨inst, h1, _⟩ :=
    apply_adds_one { instructionQueue := [⟨"h", [], [], [⟨2, 0⟩]⟩] } "t" [] [] [⟨2, 0⟩] true
  exact ⟨inst, by simpa using h1 rfl⟩

theorem resetExecutionContext_deferred (s : State) :
    (resetExecutionContext s).executionContext = none ∧
    (resetExecutionContext s).contextQuditIdsForDeletion =
      (match s.executionContext with
       | some ctx =>
          if ctx.name = "sample" ∨ ctx.name = "observe" ∨ ctx.name = "extract-state" then []
          else s.contextQuditIdsForDeletion
       | none => s.contextQuditIdsForDeletion) := by
  unfold resetExecutionContext
  simp only [synchronize_eq, handleExecutionContextEnded, deallocateAll_eq]
  cases hc : s.executionContext with
  | none => simp [isDeferringName]
  | some ctx =>
    by_cases h : ctx.name = "sample" ∨ ctx.name = "observe" ∨ ctx.name = "extract-state"
    · have hd : isDeferringName ctx.name = true := by
        simp only [isDeferringName, Bool.or_eq_true, beq_iff_eq]; tauto
      simp [hd, h]
    · have hd : isDeferringName ctx.name = false := by
        rw [← Bool.not_eq_true]
        simp only [isDeferringName, Bool.or_eq_true, beq_iff_eq]; tauto
      simp [hd, h]

/-- C18, as stated, fails: qudit 3 is returned under a `sample` context, the context is replaced
by one named `run`, and the reset then leaves 3 in the deferred list without deallocating
it. -/
theorem resetExecutionContext_deferred_counterexample :
    (resetExecutionContext
      (setExecutionContext
        (returnQudit (setExecutionContext {} (some { name := "sample", shots := 10 })) ⟨2, 3⟩)
        (some { name := "run", shots := 10 }))).contextQuditIdsForDeletion ≠ [] ∧
    (resetExecutionContext
      (setExecutionContext
        (returnQudit (setExecutionContext {} (some { name := "sample", shots := 10 })) ⟨2, 3⟩)
        (some { name := "run", shots := 10 }))).contextQuditIdsForDeletion = [3] ∧
    (resetExecutionContext
      (setExecutionContext
        (returnQudit (setExecutionContext {} (some { name := "sample", shots := 10 })) ⟨2, 3⟩)
        (some { name := "run", shots := 10 }))).trace =
      [Event.handleExecutionContextChanged, Event.handleExecutionContextChanged,
       Event.handleExecutionContextEnded] := by
  decide

/-- C18, amended. After `resetExecutionContext()` no context is attached; the deferred list is
empty when the context attached at the time of the reset is named `sample`, `observe` or
`extract-state`, and is left as it was under any other name or with no context. -/
theorem resetExecutionContext_detaches (s : State) :
    (resetExecutionContext s).executionContext = none ∧
    (resetExecutionContext s).contextQuditIdsForDeletion =
      (match s.executionContext with
       | some ctx =>
          if ctx.name = "sample" ∨ ctx.name = "observe" ∨ ctx.name = "extract-state" then []
          else s.contextQuditIdsForDeletion
       | none => s.contextQuditIdsForDeletion) :=
  resetExecutionContext_deferred s

theorem endAdjointRegion_held (s s' : State) (h : endAdjointRegion s = some s') :
    (held s').Perm (held s) ∧ s'.trace = s.trace ∧ s'.extraControlIds = s.extraControlIds := by
  cases hst : s.adjointQueueStack with
  | nil => simp [endAdjointRegion, hst] at h
  | cons q below =>
    cases below with
    | nil =>
      rw [endAdjointRegion_outer s q hst] at h
      have hs := Option.some.inj h
      subst hs
      refine ⟨?_, rfl, rfl⟩
      simp only [held, hst, List.flatten_cons, List.flatten_nil, List.append_nil]
      exact List.Perm.append_left _ (List.reverse_perm q)
    | cons parent rest =>
      rw [endAdjointRegion_nested s q parent rest hst] at h
      have hs := Option.some.inj h
      subst hs
      refine ⟨?_, rfl, rfl⟩
      simp only [held, hst, List.flatten_cons]
      refine List.Perm.append_left _ ?_
      have hassoc : q ++ (parent ++ rest.flatten) = q ++ parent ++ rest.flatten :=
        (List.append_assoc _ _ _).symm
      rw [hassoc]
      exact List.Perm.append_right _
        ((List.Perm.append_left _ (List.reverse_perm q)).trans List.perm_append_comm)

/-- C19. Rewriting happens once, at enqueue time.  With at least one adjoint region open,
whatever the depth and whatever `isAdjoint`, `apply` enqueues the instruction with the name
substituted once, the parameters negated once and the stacked control ids prepended once.
`endAdjointRegion` only moves instructions: the instructions held afterwards are a
rearrangement of those held before, and no hook is called.  `synchronize` passes the buffered
instructions to `executeInstruction` as they are and leaves the adjoint queues alone. -/
theorem rewrite_once_at_enqueue (s : State) (gateName : String) (params : List ℚ)
    (controls targets : List QuditInfo) (isAdjoint : Bool) :
    (∀ top below, s.adjointQueueStack = top :: below →
      apply s gateName params controls targets isAdjoint =
        { s with adjointQueueStack :=
            (top ++ [⟨adjointName gateName, params.map (fun p => -p),
                      s.extraControlIds.map (fun c => (⟨2, c⟩ : QuditInfo)) ++ controls,
                      targets⟩]) :: below }) ∧
    (∀ s', endAdjointRegion s = some s' → (held s').Perm (held s) ∧ s'.trace = s.trace) ∧
    (synchronize s).trace = s.trace ++ s.instructionQueue.map Event.executeInstruction ∧
    (synchronize s).adjointQueueStack = s.adjointQueueStack := by
  refine ⟨?_, ?_, ?_, ?_⟩
  · intro top below h
    rw [apply_eq, h]
  · intro s' h
    exact ⟨(endAdjointRegion_held s s' h).1, (endAdjointRegion_held s s' h).2.1⟩
  · simp [synchronize_eq]
  · simp [synchronize_eq]

/-- C19, instance: `rx(1)` applied two regions deep with `isAdjoint` set, under control id 5, is
enqueued as `rx(-1)` with control `{2,5}`. -/
theorem rewrite_once_at_enqueue_witness :
    apply { adjointQueueStack := [[], []], extraControlIds := [5] } "rx" [1] [] [⟨2, 0⟩] true =
      { adjointQueueStack := [[⟨"rx", [-1], [⟨2, 5⟩], [⟨2, 0⟩]⟩], []], extraControlIds := [5] } := by
  have h := (rewrite_once_at_enqueue { adjointQueueStack := [[], []], extraControlIds := [5] }
    "rx" [1] [] [⟨2, 0⟩] true).1 [] [[]] rfl
  rw [h]
  simp [adjointName]

theorem endAdjointRegion_depth (s s' : State) (h : endAdjointRegion s = some s') :
    s.adjointQueueStack.length = s'.adjointQueueStack.length + 1 := by
  cases hst : s.adjointQueueStack with
  | nil => simp [endAdjointRegion, hst] at h
  | cons q below =>
    cases below with
    | nil =>
      rw [endAdjointRegion_outer s q hst] at h
      have hs := Option.some.inj h
      subst hs
      simp
    | cons parent rest =>
      rw [endAdjointRegion_nested s q parent rest hst] at h
      have hs := Option.some.inj h
      subst hs
      simp

theorem endAdjointRegion_isSome (s : State) (h : 0 < s.adjointQueueStack.length) :
    ∃ s', endAdjointRegion s = some s' := by
  cases hst : s.adjointQueueStack with
  | nil => simp [hst] at h
  | cons q below =>
    simp only [endAdjointRegion, hst]
    exact ⟨_, rfl⟩

theorem applyCall_held (s : State) (c : ApplyCall) (hc : s.extraControlIds = []) :
    (held (applyCall s c)).Perm
      (held s ++ [if c.isAdjoint || decide (0 < s.adjointQueueStack.length)
                  then adjointRewrite c.instruction else c.instruction]) ∧
    (applyCall s c).adjointQueueStack.length = s.adjointQueueStack.length ∧
    (applyCall s c).extraControlIds = [] := by
  rw [applyCall, apply_eq]
  cases hst : s.adjointQueueStack with
  | nil =>
    refine ⟨?_, by simp, by simp [hc]⟩
    cases hadj : c.isAdjoint <;>
      simp [held, hst, hc, adjointRewrite_eq, ApplyCall.instruction]
  | cons top below =>
    refine ⟨?_, by simp, by simp [hc]⟩
    simp only [held, hst, hc, List.flatten_cons, List.length_cons, Nat.zero_lt_succ,
      decide_True, Bool.or_true, if_true, adjointRewrite_eq, ApplyCall.instruction,
      List.map_nil, List.nil_append, List.append_assoc]
    exact List.Perm.append_left _ (List.Perm.append_left _ List.perm_append_comm)

theorem runCalls_held (calls : List RegionCall) :
    ∀ s s' : State, s.extraControlIds = [] → runCalls s calls = some s' →
      (held s').Perm (held s ++ built s.adjointQueueStack.length calls) ∧
      nesting s.adjointQueueStack.length calls = some s'.adjointQueueStack.length := by
  induction calls with
  | nil =>
    intro s s' _ h
    simp only [runCalls, Option.some.injEq] at h
    subst h
    simp [built, nesting]
  | cons call rest ih =>
    intro s s' hc h
    cases call with
    | apply c =>
      simp only [runCalls, runCall] at h
      obtain ⟨hp, hl, hc'⟩ := applyCall_held s c hc
      obtain ⟨ihp, ihn⟩ := ih _ s' hc' h
      rw [hl] at ihp ihn
      refine ⟨?_, by simpa [nesting] using ihn⟩
      refine ihp.trans ?_
      simp only [built]
      have := List.Perm.append_right (built s.adjointQueueStack.length rest) hp
      simpa using this
    | startAdjointRegion =>
      simp only [runCalls, runCall] at h
      obtain ⟨ihp, ihn⟩ := ih (startAdjointRegion s) s' (by simpa [startAdjointRegion] using hc) h
      refine ⟨?_, by simpa [nesting, startAdjointRegion] using ihn⟩
      simpa [built, held, startAdjointRegion] using ihp
    | endAdjointRegion =>
      simp only [runCalls, runCall] at h
      cases he : endAdjointRegion s with
      | none => simp [he] at h
      | some s1 =>
        simp only [he] at h
        obtain ⟨hp, _, hc1⟩ := endAdjointRegion_held s s1 he
        have hd := endAdjointRegion_depth s s1 he
        obtain ⟨ihp, ihn⟩ := ih s1 s' (by rw [hc1, hc]) h
        refine ⟨?_, ?_⟩
        · refine ihp.trans ?_
          rw [hd]
          simpa [built] using List.Perm.append_right _ hp
        · rw [hd]
          simpa [nesting] using ihn

theorem runCalls_isSome (calls : List RegionCall) :
    ∀ (s : State) (d : Nat), nesting s.adjointQueueStack.length calls = some d →
      ∃ s', runCalls s calls = some s' := by
  induction calls with
  | nil => intro s d _; exact ⟨s, rfl⟩
  | cons call rest ih =>
    intro s d h
    cases call with
    | apply c =>
      simp only [runCalls, runCall]
      refine ih (applyCall s c) d ?_
      have hl : (applyCall s c).adjointQueueStack.length = s.adjointQueueStack.length := by
        rw [applyCall, apply_eq]
        cases s.adjointQueueStack <;> simp
      rw [hl]
      simpa [nesting] using h
    | startAdjointRegion =>
      simp only [runCalls, runCall]
      exact ih (startAdjointRegion s) d (by simpa [nesting, startAdjointRegion] using h)
    | endAdjointRegion =>
      cases hl : s.adjointQueueStack.length with
      | zero => simp [hl, nesting] at h
      | succ n =>
        obtain ⟨s1, he⟩ := endAdjointRegion_isSome s (by omega)
        have hd := endAdjointRegion_depth s s1 he
        simp only [runCalls, runCall, he]
        refine ih s1 d ?_
        have : s1.adjointQueueStack.length = n := by omega
        rw [this]
        simpa [hl, nesting] using h

theorem nesting_append (pre post : List RegionCall) :
    ∀ d, nesting d (pre ++ post) = (nesting d pre).bind (fun d' => nesting d' post) := by
  induction pre with
  | nil => intro d; simp [nesting]
  | cons call rest ih =>
    intro d
    cases call with
    | apply c => simpa [nesting] using ih d
    | startAdjointRegion => simpa [nesting] using ih (d + 1)
    | endAdjointRegion =>
      cases d with
      | zero => simp [nesting]
      | succ n => simpa [nesting] using ih n

theorem built_length (calls : List RegionCall) :
    ∀ d, (built d calls).length = applyCount calls := by
  induction calls with
  | nil => intro d; simp [built, applyCount]
  | cons call rest ih =>
    intro d
    cases call with
    | apply c =>
      have := ih d
      simp only [applyCount] at this
      simp [built, applyCount, List.countP_cons, this]
    | startAdjointRegion =>
      have := ih (d + 1)
      simp only [applyCount] at this
      simp [built, applyCount, List.countP_cons, this]
    | endAdjointRegion =>
      have := ih (d - 1)
      simp only [applyCount] at this
      simp [built, applyCount, List.countP_cons, this]

/-- C21. Properly nested adjoint regions conserve instructions: when every `endAdjointRegion`
of a call sequence has an open region to close and all regions are closed at the end, the
sequence runs on an empty manager, leaves the adjoint stack empty and the live buffer a
rearrangement of the instructions its `apply` calls built; and after every initial part of the
sequence the number of instructions held in the live buffer and the scope queues together is
the number of `apply` calls made so far. -/
theorem adjoint_regions_conserve (calls : List RegionCall) (h : nesting 0 calls = some 0) :
    (∃ s : State, runCalls {} calls = some s ∧ s.adjointQueueStack = [] ∧
      s.instructionQueue.Perm (built 0 calls)) ∧
    (∀ pre post, calls = pre ++ post →
      ∃ s' : State, runCalls {} pre = some s' ∧ (held s').length = applyCount pre) := by
  constructor
  · obtain ⟨s, hs⟩ := runCalls_isSome calls {} 0 h
    obtain ⟨hp, hn⟩ := runCalls_held calls {} s rfl hs
    have hn' : nesting 0 calls = some s.adjointQueueStack.length := hn
    rw [h] at hn'
    have hempty : s.adjointQueueStack = [] :=
      List.length_eq_zero.mp (Option.some.inj hn').symm
    refine ⟨s, hs, hempty, ?_⟩
    have hp' : (held s).Perm (built 0 calls) := by simpa [held] using hp
    simpa [held, hempty] using hp'
  · intro pre post hcalls
    subst hcalls
    have hpre : ∃ d, nesting 0 pre = some d := by
      rw [nesting_append] at h
      cases hn : nesting 0 pre with
      | none => simp [hn] at h
      | some d => exact ⟨d, rfl⟩
    obtain ⟨d, hd⟩ := hpre
    obtain ⟨s', hs'⟩ := runCalls_isSome pre {} d hd
    obtain ⟨hp, _⟩ := runCalls_held pre {} s' rfl hs'
    refine ⟨s', hs', ?_⟩
    have hlen := hp.length_eq
    have hb : (built 0 pre).length = applyCount pre := built_length pre 0
    have h0 : (held ({} : State)).length = 0 := rfl
    rw [List.length_append, h0] at hlen
    change (held s').length = 0 + (built 0 pre).length at hlen
    omega

/-- C21, instance: two nested regions with one gate in each and one gate between the closes. -/
theorem adjoint_regions_conserve_witness :
    ∃ s : State,
      runCalls {} [RegionCall.startAdjointRegion,
        RegionCall.apply ⟨"x", [], [], [⟨2, 0⟩], false⟩, RegionCall.startAdjointRegion,
        RegionCall.apply ⟨"t", [], [], [⟨2, 0⟩], false⟩, RegionCall.endAdjointRegion,
        RegionCall.apply ⟨"h", [], [], [⟨2, 1⟩], false⟩, RegionCall.endAdjointRegion] = some s ∧
      s.adjointQueueStack = [] ∧
      s.instructionQueue.Perm (built 0 [RegionCall.startAdjointRegion,
        RegionCall.apply ⟨"x", [], [], [⟨2, 0⟩], false⟩, RegionCall.startAdjointRegion,
        RegionCall.apply ⟨"t", [], [], [⟨2, 0⟩], false⟩, RegionCall.endAdjointRegion,
        RegionCall.apply ⟨"h", [], [], [⟨2, 1⟩], false⟩, RegionCall.endAdjointRegion]) :=
  (adjoint_regions_conserve [RegionCall.startAdjointRegion,
    RegionCall.apply ⟨"x", [], [], [⟨2, 0⟩], false⟩, RegionCall.startAdjointRegion,
    RegionCall.apply ⟨"t", [], [], [⟨2, 0⟩], false⟩, RegionCall.endAdjointRegion,
    RegionCall.apply ⟨"h", [], [], [⟨2, 1⟩], false⟩, RegionCall.endAdjointRegion] (by decide)).1

theorem executed_append (t1 t2 : List Event) : executed (t1 ++ t2) = executed t1 ++ executed t2 := by
  simp [executed, List.filterMap_append]

theorem executed_map (q : List Instruction) :
    executed (q.map Event.executeInstruction) = q := by
  induction q with
  | nil => rfl
  | cons i rest ih =>
    simp only [executed, List.map_cons, List.filterMap_cons] at ih ⊢
    rw [ih]

theorem executed_deallocations (ids : List Nat) :
    executed (ids.flatMap (fun q => [Event.deallocateQudit q, Event.returnIndex q])) = [] := by
  induction ids with
  | nil => rfl
  | cons q rest ih =>
    simp only [List.flatMap_cons, executed_append, ih]
    rfl

theorem resetExecutionContext_stack (s : State) :
    (resetExecutionContext s).adjointQueueStack = s.adjointQueueStack := by
  unfold resetExecutionContext
  simp only [synchronize_eq, handleExecutionContextEnded, deallocateAll_eq]
  split <;> rfl

/-- C22. `synchronize()`, `measure()` and `resetExecutionContext()` flush the live buffer only:
each passes to `executeInstruction` exactly the instructions of the live buffer and leaves the
adjoint scope queues as they are.  So with a region open, an instruction applied and then a
measure issued, the measure is performed while the applied instruction still waits, unexecuted,
at the back of the top scope queue. -/
theorem flush_leaves_adjoint_queues (ex : Executor) (s : State) (c : ApplyCall)
    (target : QuditInfo) :
    ((synchronize s).adjointQueueStack = s.adjointQueueStack ∧
      executed (synchronize s).trace = executed s.trace ++ s.instructionQueue) ∧
    ((measure ex s target).2.adjointQueueStack = s.adjointQueueStack ∧
      executed (measure ex s target).2.trace = executed s.trace ++ s.instructionQueue) ∧
    ((resetExecutionContext s).adjointQueueStack = s.adjointQueueStack ∧
      executed (resetExecutionContext s).trace = executed s.trace ++ s.instructionQueue) ∧
    (∀ top below, s.adjointQueueStack = top :: below →
      ∃ inst : Instruction,
        (measure ex (applyCall s c) target).2.adjointQueueStack = (top ++ [inst]) :: below ∧
        (measure ex (applyCall s c) target).2.trace =
          s.trace ++ s.instructionQueue.map Event.executeInstruction ++
            [Event.measureQudit target]) := by
  refine ⟨⟨by simp [synchronize_eq], ?_⟩, ⟨by simp [measure, measureQudit, synchronize_eq], ?_⟩,
    ⟨resetExecutionContext_stack s, ?_⟩, ?_⟩
  · simp [synchronize_eq, executed_append, executed_map]
  · simp only [measure, measureQudit, synchronize_eq, executed_append, executed_map]
    simp [executed]
  · rw [resetExecutionContext_trace]
    simp only [executed_append, executed_map]
    cases s.executionContext with
    | none => simp [executed]
    | some ctx =>
      simp only []
      split
      · rw [executed_deallocations]; simp [executed]
      · simp [executed]
  · intro top below h
    refine ⟨⟨adjointName c.gateName, c.params.map (fun p => -p),
      s.extraControlIds.map (QuditInfo.mk 2) ++ c.controls, c.targets⟩, ?_, ?_⟩
    · simp [measure, measureQudit, synchronize_eq, applyCall, apply_eq, h]
    · simp [measure, measureQudit, synchronize_eq, applyCall, apply_eq, h]

/-- C22, instance: inside one open region `x` is applied and then qudit 0 is measured; the only
hook call is the measurement, and `x` is still in the scope queue. -/
theorem flush_leaves_adjoint_queues_witness :
    ∃ inst : Instruction,
      (measure ⟨fun _ _ => 1⟩ (applyCall { adjointQueueStack := [[]] }
          ⟨"x", [], [], [⟨2, 0⟩], false⟩) ⟨2, 0⟩).2.adjointQueueStack = [[inst]] ∧
      (measure ⟨fun _ _ => 1⟩ (applyCall { adjointQueueStack := [[]] }
          ⟨"x", [], [], [⟨2, 0⟩], false⟩) ⟨2, 0⟩).2.trace = [Event.measureQudit ⟨2, 0⟩] := by
  obtain ⟨inst, h1, h2⟩ := (flush_leaves_adjoint_queues ⟨fun _ _ => 1⟩
    { adjointQueueStack := [[]] } ⟨"x", [], [], [⟨2, 0⟩], false⟩ ⟨2, 0⟩).2.2.2 [] [] rfl
  exact ⟨inst, by simpa using h1, by simpa using h2⟩

/-- C23. `returnQudit` never changes the live instruction buffer, whatever the state, the
context and the qudit; under a context named `observe` the call takes the deferral branch
(it only appends the id to the deferred list), so the buffer-clearing branch guarded by
`observe` is never reached. -/
theorem returnQudit_keeps_buffer (s : State) (qid : QuditInfo) :
    (returnQudit s qid).instructionQueue = s.instructionQueue ∧
    (∀ ctx, s.executionContext = some ctx → ctx.name = "observe" →
      returnQudit s qid =
        { s with contextQuditIdsForDeletion := s.contextQuditIdsForDeletion ++ [qid.id] }) :=
  ⟨returnQudit_queue s qid,
   fun ctx hc hn => returnQudit_deferred s ctx qid hc (Or.inr (Or.inl hn))⟩

/-- C23, instance: with every qudit of the pool available and an `observe` context, returning
a qudit leaves the pending `h` in the live buffer. -/
theorem returnQudit_keeps_buffer_witness :
    returnQudit { executionContext := some { name := "observe", shots := 1 },
                  instructionQueue := [⟨"h", [], [], [⟨2, 0⟩]⟩] } ⟨2, 0⟩ =
      { executionContext := some { name := "observe", shots := 1 },
        instructionQueue := [⟨"h", [], [], [⟨2, 0⟩]⟩],
        contextQuditIdsForDeletion := [0] } := by
  have h := (returnQudit_keeps_buffer
    { executionContext := some { name := "observe", shots := 1 },
      instructionQueue := [⟨"h", [], [], [⟨2, 0⟩]⟩] } ⟨2, 0⟩).2
      { name := "observe", shots := 1 } rfl rfl
  simpa using h

/-- C25. `setExecutionContext(ctx)` changes the attached context, empties the live buffer and
makes one hook call, and nothing else: the adjoint scope stack with the instructions pending in
it, the control-scope id stack and the deferred-deallocation list are the same afterwards as
before. -/
theorem setExecutionContext_frame (s : State) (ctx : Option ExecutionContext) :
    setExecutionContext s ctx =
      { s with executionContext := ctx, instructionQueue := [],
               trace := s.trace ++ [Event.handleExecutionContextChanged] } ∧
    (setExecutionContext s ctx).adjointQueueStack = s.adjointQueueStack ∧
    (setExecutionContext s ctx).extraControlIds = s.extraControlIds ∧
    (setExecutionContext s ctx).contextQuditIdsForDeletion = s.contextQuditIdsForDeletion := by
  simp [setExecutionContext, handleExecutionContextChanged, popAll_eq]

end BasicExecutionManager

/-! ## The sampling driver -/

namespace sample_result

theorem total_addCount (t : sample_result) (bits : String) (n : Nat) :
    total (addCount t bits n) = total t + n := by
  induction t with
  | nil => simp [addCount, total]
  | cons e rest ih =>
    obtain ⟨b, m⟩ := e
    by_cases h : b = bits
    · simp [addCount, total, h]; omega
    · simp only [addCount, h, if_false]
      simp only [total, List.map_cons, List.sum_cons] at ih ⊢
      omega

theorem total_merge (counts other : sample_result) :
    total (merge counts other) = total counts + total other := by
  unfold merge
  induction other generalizing counts with
  | nil => simp [total]
  | cons e rest ih =>
    rw [List.foldl_cons, ih, total_addCount]
    simp [total]; omega

end sample_result

namespace details

theorem toUnsigned_natCast (N : Nat) (h : N < 2 ^ 32) : toUnsigned (N : Int) = N := by
  unfold toUnsigned
  rw [Int.emod_eq_of_lt (by positivity) (by exact_mod_cast h)]
  simp

theorem unsignedSub_one (N : Nat) (h1 : 1 ≤ N) (h2 : N < 2 ^ 32) : unsignedSub N 1 = N - 1 := by
  unfold unsignedSub
  norm_num at h2 ⊢
  omega

theorem shotStep_eq (W : World) (N qpu_id : Nat) (h1 : 1 ≤ N) (h2 : N < 2 ^ 31)
    (c0 : ExecutionContext) (counts : sample_result) (calls : List Call) (k : Nat) :
    shotStep W (N : Int) qpu_id ⟨entryCtx W c0 k, counts, calls⟩ k =
      ⟨entryCtx W c0 (k + 1), sample_result.merge counts (shotResult W c0 k),
       calls ++ ([Call.wrappedKernel, Call.reset_exec_ctx qpu_id] ++
         if k + 1 < N then [Call.set_exec_ctx (entryCtx W c0 (k + 1)) qpu_id] else [])⟩ := by
  have h3 : N < 2 ^ 32 := by
    have : (2 : Nat) ^ 31 < 2 ^ 32 := by norm_num
    omega
  have hlt : (k < unsignedSub (toUnsigned (N : Int)) 1) ↔ k + 1 < N := by
    rw [toUnsigned_natCast N h3, unsignedSub_one N h1 h3]
    omega
  unfold shotStep
  by_cases hk : k + 1 < N
  · simp [hlt, hk, entryCtx, shotResult]
  · simp [hlt, hk, entryCtx, shotResult]

theorem emulation_loop (W : World) (N qpu_id : Nat) (h1 : 1 ≤ N) (h2 : N < 2 ^ 31)
    (c0 : ExecutionContext) (calls : List Call) (k : Nat) :
    (List.range k).foldl (shotStep W (N : Int) qpu_id) ⟨c0, [], calls⟩ =
      ⟨entryCtx W c0 k,
       (List.range k).foldl (fun acc i => sample_result.merge acc (shotResult W c0 i)) [],
       calls ++ (List.range k).flatMap (fun i =>
         [Call.wrappedKernel, Call.reset_exec_ctx qpu_id] ++
           if i + 1 < N then [Call.set_exec_ctx (entryCtx W c0 (i + 1)) qpu_id] else [])⟩ := by
  induction k with
  | zero => simp [entryCtx]
  | succ k ih =>
    rw [List.range_succ, List.foldl_append, ih]
    simp only [List.foldl_cons, List.foldl_nil]
    rw [shotStep_eq W N qpu_id h1 h2]
    simp [List.foldl_append, List.flatMap_append]

theorem count_kernel_iterations (qpu_id : Nat) (g : Nat → List Call)
    (hg : ∀ i, (g i).count Call.wrappedKernel = 0) (k : Nat) :
    ((List.range k).flatMap (fun i =>
      [Call.wrappedKernel, Call.reset_exec_ctx qpu_id] ++ g i)).count Call.wrappedKernel = k := by
  induction k with
  | zero => simp
  | succ k ih =>
    rw [List.range_succ, List.flatMap_append, List.count_append, ih]
    simp [List.count_cons, hg]

theorem total_foldl_merge (f : Nat → sample_result) (k : Nat)
    (h : ∀ i, i < k → sample_result.total (f i) = 1) :
    sample_result.total
      ((List.range k).foldl (fun acc i => sample_result.merge acc (f i)) []) = k := by
  induction k with
  | zero => simp [sample_result.total]
  | succ k ih =>
    rw [List.range_succ, List.foldl_append]
    simp only [List.foldl_cons, List.foldl_nil]
    rw [sample_result.total_merge, ih (fun i hi => h i (by omega)), h k (by omega)]

theorem runSampling_emulation_eq (W : World) (kernelName : String) (N qpu_id : Nat)
    (futureResult : Option future) (h1 : 1 ≤ N) (h2 : N < 2 ^ 31)
    (hk : W.kernelHasConditionalFeedback kernelName = true)
    (hp : W.supports_conditional_feedback qpu_id = false) :
    runSampling W kernelName (N : Int) qpu_id futureResult =
      ⟨some ((List.range N).foldl (fun acc i => sample_result.merge acc
          (shotResult W (createContext W kernelName (N : Int) futureResult) i)) []),
       futureResult,
       entryCtx W (createContext W kernelName (N : Int) futureResult) N,
       [Call.set_exec_ctx (createContext W kernelName (N : Int) futureResult) qpu_id,
        Call.set_current_qpu qpu_id, Call.supports_conditional_feedback] ++
        (List.range N).flatMap (fun i =>
          [Call.wrappedKernel, Call.reset_exec_ctx qpu_id] ++
            if i + 1 < N then
              [Call.set_exec_ctx
                (entryCtx W (createContext W kernelName (N : Int) futureResult) (i + 1)) qpu_id]
            else [])⟩ := by
  have hc : (createContext W kernelName (N : Int) futureResult).hasConditionalsOnMeasureResults
      = true := by simp [createContext, hk]
  unfold runSampling
  simp only [hc, hp, range, Int.toNat_ofNat]
  rw [emulation_loop W N qpu_id h1 h2]
  simp

/-- C8. On the emulation path (kernel with conditional feedback, platform without native
support) and for a shot count `N` with `1 ≤ N` (an `int`, so `N < 2^31`), `runSampling` invokes
the wrapped kernel exactly `N` times; every invocation is followed by one `reset_exec_ctx`, and
`set_exec_ctx` is issued again after every iteration but the last; the returned counts are the
merge of the `N` per-iteration context results in iteration order, so when every iteration's
result holds exactly one observation the returned total is `N`. -/
theorem runSampling_emulation_shots (W : World) (kernelName : String) (N qpu_id : Nat)
    (futureResult : Option future) (h1 : 1 ≤ N) (h2 : N < 2 ^ 31)
    (hk : W.kernelHasConditionalFeedback kernelName = true)
    (hp : W.supports_conditional_feedback qpu_id = false) :
    (runSampling W kernelName (N : Int) qpu_id futureResult).calls.count Call.wrappedKernel = N ∧
    (runSampling W kernelName (N : Int) qpu_id futureResult).calls =
      [Call.set_exec_ctx (createContext W kernelName (N : Int) futureResult) qpu_id,
       Call.set_current_qpu qpu_id, Call.supports_conditional_feedback] ++
        (List.range N).flatMap (fun i =>
          [Call.wrappedKernel, Call.reset_exec_ctx qpu_id] ++
            if i + 1 < N then
              [Call.set_exec_ctx
                (entryCtx W (createContext W kernelName (N : Int) futureResult) (i + 1)) qpu_id]
            else []) ∧
    (runSampling W kernelName (N : Int) qpu_id futureResult).value =
      some ((List.range N).foldl (fun acc i => sample_result.merge acc
        (shotResult W (createContext W kernelName (N : Int) futureResult) i)) []) ∧
    ((∀ i, i < N → sample_result.total
        (shotResult W (createContext W kernelName (N : Int) futureResult) i) = 1) →
      ∃ counts, (runSampling W kernelName (N : Int) qpu_id futureResult).value = some counts ∧
        sample_result.total counts = N) := by
  rw [runSampling_emulation_eq W kernelName N qpu_id futureResult h1 h2 hk hp]
  refine ⟨?_, rfl, rfl, ?_⟩
  · simp only [List.count_append]
    rw [count_kernel_iterations qpu_id _ (fun i => by split <;> simp [List.count_cons])]
    simp [List.count_cons]
  · intro h
    exact ⟨_, rfl, total_foldl_merge _ N h⟩

/-- C8, instance: 1000 shots on a platform without native conditional feedback run the kernel
1000 times and return a counts table whose total is 1000. -/
theorem runSampling_emulation_shots_witness :
    (runSampling emulatedWorld "kernel" ((1000 : Nat) : Int) 0 none).calls.count
        Call.wrappedKernel = 1000 ∧
    ∃ counts, (runSampling emulatedWorld "kernel" ((1000 : Nat) : Int) 0 none).value
        = some counts ∧ sample_result.total counts = 1000 := by
  have h := runSampling_emulation_shots emulatedWorld "kernel" 1000 0 none
    (by norm_num) (by norm_num) rfl rfl
  exact ⟨h.1, h.2.2.2 (fun i _ => by simp [shotResult, emulatedWorld, sample_result.total])⟩

/-- C9. `runSamplingAsync` fails with an invalid-argument error exactly when
`qpu_id >= platform.num_qpus()`; when it fails the only call it has made is `num_qpus`: no
`set_exec_ctx`, `set_current_qpu`, `enqueueAsyncTask`, no task creation, no kernel run. -/
theorem runSamplingAsync_invalid_qpu (W : World) (kernelName : String) (shots : Int)
    (qpu_id : Nat) :
    ((∃ what, (runSamplingAsync W kernelName shots qpu_id).result =
        AsyncResult.invalid_argument what) ↔ qpu_id ≥ W.num_qpus) ∧
    (qpu_id ≥ W.num_qpus →
      (runSamplingAsync W kernelName shots qpu_id).calls = [Call.num_qpus]) := by
  unfold runSamplingAsync
  by_cases h : qpu_id ≥ W.num_qpus
  · simp [h]
  · by_cases hr : W.is_remote qpu_id = true <;> simp [h, hr]

/-- C9, instance: `qpu_id = 5` on a platform with 2 QPUs fails after the `num_qpus` query
alone. -/
theorem runSamplingAsync_invalid_qpu_witness :
    (∃ what, (runSamplingAsync emulatedWorld "kernel" 1000 5).result =
        AsyncResult.invalid_argument what) ∧
    (runSamplingAsync emulatedWorld "kernel" 1000 5).calls = [Call.num_qpus] :=
  ⟨(runSamplingAsync_invalid_qpu emulatedWorld "kernel" 1000 5).1.2 (by decide),
   (runSamplingAsync_invalid_qpu emulatedWorld "kernel" 1000 5).2 (by decide)⟩

theorem runSampling_future_single_run (W : World) (kernelName : String) (shots : Int)
    (qpu_id : Nat) (slot : future)
    (h : W.kernelHasConditionalFeedback kernelName = false ∨
      W.supports_conditional_feedback qpu_id = true) :
    (runSampling W kernelName shots qpu_id (some slot)).value = none ∧
    (runSampling W kernelName shots qpu_id (some slot)).futureResult =
      some (W.wrappedKernel 0 (createContext W kernelName shots (some slot))).futureResult := by
  unfold runSampling
  cases hk : W.kernelHasConditionalFeedback kernelName <;>
    cases hp : W.supports_conditional_feedback qpu_id <;>
    simp_all [createContext]

/-- C10, the failing input: with a kernel that has conditional feedback on a platform without
native support, one shot and a non-null future slot, `runSampling` returns an aggregate and
leaves the slot as it was, although the context holds another future; `runSamplingAsync` on a
remote QPU then hands out that untouched slot. -/
theorem runSampling_emulation_ignores_future :
    (runSampling emulatedWorld "kernel" 1 0 (some ⟨0⟩)).value = some [("0", 1)] ∧
    (runSampling emulatedWorld "kernel" 1 0 (some ⟨0⟩)).futureResult = some ⟨0⟩ ∧
    (runSampling emulatedWorld "kernel" 1 0 (some ⟨0⟩)).ctx.futureResult = ⟨7⟩ ∧
    (runSamplingAsync emulatedWorld "kernel" 1 0).result =
      AsyncResult.async_sample_result ⟨0⟩ := by
  decide

theorem runSampling_single_run_eq (W : World) (kernelName : String) (shots : Int)
    (qpu_id : Nat) (futureResult : Option future)
    (h : W.kernelHasConditionalFeedback kernelName = false ∨
      W.supports_conditional_feedback qpu_id = true) :
    runSampling W kernelName shots qpu_id futureResult =
      (match futureResult with
       | some _ =>
          ⟨none,
           some (W.wrappedKernel 0 (createContext W kernelName shots futureResult)).futureResult,
           W.wrappedKernel 0 (createContext W kernelName shots futureResult),
           [Call.set_exec_ctx (createContext W kernelName shots futureResult) qpu_id,
            Call.set_current_qpu qpu_id, Call.supports_conditional_feedback,
            Call.wrappedKernel]⟩
       | none =>
          ⟨some (W.reset_exec_ctx 0
              (W.wrappedKernel 0 (createContext W kernelName shots futureResult))).result,
           none,
           W.reset_exec_ctx 0 (W.wrappedKernel 0 (createContext W kernelName shots futureResult)),
           [Call.set_exec_ctx (createContext W kernelName shots futureResult) qpu_id,
            Call.set_current_qpu qpu_id, Call.supports_conditional_feedback,
            Call.wrappedKernel, Call.reset_exec_ctx qpu_id]⟩) := by
  have hc : (createContext W kernelName shots futureResult).hasConditionalsOnMeasureResults
      = W.kernelHasConditionalFeedback kernelName := by simp [createContext]
  unfold runSampling
  cases hk : W.kernelHasConditionalFeedback kernelName <;>
    cases hp : W.supports_conditional_feedback qpu_id <;>
    cases futureResult <;> simp_all

/-- C11. When the kernel has no conditional feedback, or has it and the platform supports it
natively, `runSampling` first installs a context named `sample` with `shots = N`, then invokes
the wrapped kernel exactly once, whatever `N`; with a null future it then calls
`reset_exec_ctx` exactly once and returns the result the context then holds. -/
theorem runSampling_single_run (W : World) (kernelName : String) (N : Int) (qpu_id : Nat)
    (futureResult : Option future)
    (h : W.kernelHasConditionalFeedback kernelName = false ∨
      W.supports_conditional_feedback qpu_id = true) :
    (createContext W kernelName N futureResult).name = "sample" ∧
    (createContext W kernelName N futureResult).shots = N ∧
    (runSampling W kernelName N qpu_id futureResult).calls.take 4 =
      [Call.set_exec_ctx (createContext W kernelName N futureResult) qpu_id,
       Call.set_current_qpu qpu_id, Call.supports_conditional_feedback, Call.wrappedKernel] ∧
    (runSampling W kernelName N qpu_id futureResult).calls.count Call.wrappedKernel = 1 ∧
    (runSampling W kernelName N qpu_id none).calls =
      [Call.set_exec_ctx (createContext W kernelName N none) qpu_id,
       Call.set_current_qpu qpu_id, Call.supports_conditional_feedback, Call.wrappedKernel,
       Call.reset_exec_ctx qpu_id] ∧
    (runSampling W kernelName N qpu_id none).value =
      some (W.reset_exec_ctx 0 (W.wrappedKernel 0 (createContext W kernelName N none))).result := by
  rw [runSampling_single_run_eq W kernelName N qpu_id futureResult h,
    runSampling_single_run_eq W kernelName N qpu_id none h]
  refine ⟨by simp [createContext], by simp [createContext], ?_, ?_, rfl, rfl⟩
  · cases futureResult <;> simp
  · cases futureResult <;> simp [List.count_cons]

/-- C11, instance: on a platform with native conditional feedback, 1000 shots run the kernel
once and return the aggregate the platform put into the context. -/
theorem runSampling_single_run_witness :
    (runSampling nativeWorld "kernel" 1000 0 none).calls.count Call.wrappedKernel = 1 ∧
    (runSampling nativeWorld "kernel" 1000 0 none).value = some [("0", 600), ("1", 400)] := by
  have h := runSampling_single_run nativeWorld "kernel" 1000 0 none (Or.inr rfl)
  exact ⟨h.2.2.2.1, by simpa [nativeWorld] using h.2.2.2.2.2⟩

theorem installs_iterations (qpu_id N : Nat) (c : Nat → ExecutionContext) (k : Nat) :
    installs ((List.range k).flatMap (fun i =>
      [Call.wrappedKernel, Call.reset_exec_ctx qpu_id] ++
        if i + 1 < N then [Call.set_exec_ctx (c i) qpu_id] else [])) = min k (N - 1) ∧
    teardowns ((List.range k).flatMap (fun i =>
      [Call.wrappedKernel, Call.reset_exec_ctx qpu_id] ++
        if i + 1 < N then [Call.set_exec_ctx (c i) qpu_id] else [])) = k := by
  induction k with
  | zero => simp [installs, teardowns]
  | succ k ih =>
    obtain ⟨ih1, ih2⟩ := ih
    simp only [installs, teardowns] at ih1 ih2
    rw [List.range_succ, List.flatMap_append]
    simp only [installs, teardowns, List.countP_append, ih1, ih2]
    by_cases hk : k + 1 < N
    · simp [hk, List.countP_cons]
      omega
    · simp [hk, List.countP_cons]
      omega

theorem runSampling_balanced (W : World) (kernelName : String) (N qpu_id : Nat)
    (h : W.kernelHasConditionalFeedback kernelName = false ∨
      W.supports_conditional_feedback qpu_id = true ∨ (1 ≤ N ∧ N < 2 ^ 31)) :
    installs (runSampling W kernelName (N : Int) qpu_id none).calls =
      teardowns (runSampling W kernelName (N : Int) qpu_id none).calls := by
  by_cases hs : W.kernelHasConditionalFeedback kernelName = false ∨
      W.supports_conditional_feedback qpu_id = true
  · rw [runSampling_single_run_eq W kernelName N qpu_id none hs]
    simp [installs, teardowns, List.countP_cons]
  · have hk : W.kernelHasConditionalFeedback kernelName = true := by
      cases hk : W.kernelHasConditionalFeedback kernelName
      · exact absurd (Or.inl hk) hs
      · rfl
    have hp : W.supports_conditional_feedback qpu_id = false := by
      cases hp : W.supports_conditional_feedback qpu_id
      · rfl
      · exact absurd (Or.inr hp) hs
    have hN : 1 ≤ N ∧ N < 2 ^ 31 := by
      rcases h with h | h | h
      · exact absurd (Or.inl h) hs
      · exact absurd (Or.inr h) hs
      · exact h
    rw [runSampling_emulation_eq W kernelName N qpu_id none hN.1 hN.2 hk hp]
    obtain ⟨h1, h2⟩ := installs_iterations qpu_id N
      (fun i => entryCtx W (createContext W kernelName (N : Int) none) (i + 1)) N
    simp only [installs, teardowns] at h1 h2
    simp only [installs, teardowns, List.countP_append, h1, h2]
    simp [List.countP_cons]
    omega

/-- C24, the failing input: with zero shots, a kernel with conditional feedback, a platform
without native support and a null future, `runSampling` installs the context once and never
resets it: it makes one `set_exec_ctx` call and no `reset_exec_ctx` call, and returns an empty
counts table. -/
theorem runSampling_zero_shots_unbalanced :
    (runSampling emulatedWorld "kernel" 0 0 none).calls =
      [Call.set_exec_ctx (createContext emulatedWorld "kernel" 0 none) 0,
       Call.set_current_qpu 0, Call.supports_conditional_feedback] ∧
    installs (runSampling emulatedWorld "kernel" 0 0 none).calls = 1 ∧
    teardowns (runSampling emulatedWorld "kernel" 0 0 none).calls = 0 ∧
    (runSampling emulatedWorld "kernel" 0 0 none).value = some [] := by
  decide

end details

/-! ## The argument synthesizer -/

namespace QuakeSynthesizer

theorem argumentStep_vectorTargets (args : ArgsBuffer) (st st' : LoopState) (argument : Nat)
    (type : ArgType) (h : argumentStep args st argument type = some st') :
    vectorTargets st'.actions = vectorTargets st.actions := by
  cases type <;> simp [argumentStep, synthesizeRuntimeArgument] at h <;>
    subst h <;> simp [vectorTargets, List.filterMap_append]

theorem argumentLoop_vectorTargets (args : ArgsBuffer) (l : List (Nat × ArgType))
    (st st' : LoopState) (h : argumentLoop args l st = some st') :
    vectorTargets st'.actions = vectorTargets st.actions := by
  induction l generalizing st with
  | nil =>
    simp only [argumentLoop, Option.some.injEq] at h
    rw [h]
  | cons p rest ih =>
    obtain ⟨argument, type⟩ := p
    simp only [argumentLoop] at h
    cases hs : argumentStep args st argument type with
    | none => simp [hs] at h
    | some st1 =>
      simp only [hs] at h
      rw [ih st1 h, argumentStep_vectorTargets args st st1 argument type hs]

theorem vectorLoop_vectorTargets (args : ArgsBuffer) (offset : Nat) (sizes : List Nat)
    (idx : Nat) (acc : List Action) :
    vectorTargets (sizes.foldl (vectorStep args offset) (idx, acc)).2 =
      vectorTargets acc ++ (List.range sizes.length).map (fun j => (idx + j, offset)) := by
  induction sizes generalizing idx acc with
  | nil => simp
  | cons sz rest ih =>
    rw [List.foldl_cons]
    simp only [vectorStep, synthesizeVectorArgument]
    rw [ih]
    simp only [vectorTargets, List.filterMap_append, List.filterMap_cons, List.filterMap_nil,
      List.length_cons, List.range_succ_eq_map, List.map_cons, List.map_map, Nat.add_zero,
      List.append_assoc, List.singleton_append]
    congr 2
    apply List.map_congr_left
    intro j _
    simp only [Function.comp, Nat.succ_eq_add_one]
    congr 1
    omega

theorem runOnOperation_vectorTargets (arguments : List ArgType) (args : ArgsBuffer)
    (r : SynthesisRun) (h : runOnOperation arguments args = some r) :
    vectorTargets r.actions =
      (List.range r.stdVecSizes.length).map (fun j => (j, r.offset)) := by
  unfold runOnOperation at h
  cases hl : argumentLoop args ((List.range arguments.length).zip arguments) {} with
  | none => simp [hl] at h
  | some st =>
    simp only [hl, Option.some.injEq] at h
    subst h
    simp only []
    rw [vectorLoop_vectorTargets, argumentLoop_vectorTargets args _ _ st hl]
    simp [vectorTargets]

/-- C20, the failing inputs.  For the argument list `(i32, stdvec)` the one vector argument sits
at position 1, yet its elements, read at offset 12, are substituted into block argument 0.  For
`(stdvec, stdvec)` with one element each, the second vector is read at offset 16 like the
first, not at offset 24 behind the first vector's element, and so receives the first vector's
data. -/
theorem stdvec_synthesis_failing_inputs :
    stdvecPositions [ArgType.i32, ArgType.stdvec] = [1] ∧
    (runOnOperation [ArgType.i32, ArgType.stdvec]
        (bufferOf [7, 0, 0, 0, 16, 0, 0, 0, 0, 0, 0, 0,
                   1, 1, 1, 1, 1, 1, 1, 1, 2, 2, 2, 2, 2, 2, 2, 2])).map
      (fun r => r.actions) =
      some [Action.constant 0 ArgType.i32 0 [7, 0, 0, 0],
            Action.stdvecSize 1 4 2,
            Action.vector 0 12 [[1, 1, 1, 1, 1, 1, 1, 1], [2, 2, 2, 2, 2, 2, 2, 2]]] ∧
    stdvecPositions [ArgType.stdvec, ArgType.stdvec] = [0, 1] ∧
    (runOnOperation [ArgType.stdvec, ArgType.stdvec]
        (bufferOf [8, 0, 0, 0, 0, 0, 0, 0, 8, 0, 0, 0, 0, 0, 0, 0,
                   1, 1, 1, 1, 1, 1, 1, 1, 2, 2, 2, 2, 2, 2, 2, 2])).map
      (fun r => r.actions) =
      some [Action.stdvecSize 0 0 1,
            Action.stdvecSize 1 8 1,
            Action.vector 0 16 [[1, 1, 1, 1, 1, 1, 1, 1]],
            Action.vector 1 16 [[1, 1, 1, 1, 1, 1, 1, 1]]] := by
  decide

theorem argumentStep_slot (args : ArgsBuffer) (st : LoopState) (k : Nat) (type : ArgType)
    (h : type ≠ ArgType.unsupported) :
    argumentStep args st k type =
      some { offset := st.offset + slotSize type,
             stdVecSizes := st.stdVecSizes ++
               (if type = ArgType.stdvec then [readSizeT args st.offset / 8] else []),
             actions := st.actions ++ [slotAction args k type st.offset] } := by
  cases type <;>
    simp [argumentStep, synthesizeRuntimeArgument, slotSize, slotAction] at h ⊢

theorem argumentLoop_slots (args : ArgsBuffer) (l : List ArgType)
    (h : ArgType.unsupported ∉ l) :
    ∀ (i : Nat) (st : LoopState),
      argumentLoop args ((List.range' i l.length).zip l) st =
        some { offset := st.offset + (l.map slotSize).sum,
               stdVecSizes := st.stdVecSizes ++
                 (List.range l.length).flatMap (fun j =>
                   if l.getD j ArgType.unsupported = ArgType.stdvec
                   then [readSizeT args (st.offset + slotOffset l j) / 8] else []),
               actions := st.actions ++
                 (List.range l.length).map (fun j =>
                   slotAction args (i + j) (l.getD j ArgType.unsupported)
                     (st.offset + slotOffset l j)) } := by
  induction l with
  | nil => intro i st; simp [argumentLoop]
  | cons t rest ih =>
    intro i st
    have ht : t ≠ ArgType.unsupported := fun e => h (by simp [e])
    have hrest : ArgType.unsupported ∉ rest := fun e => h (by simp [e])
    simp only [List.length_cons, List.range', List.zip_cons_cons, argumentLoop]
    rw [argumentStep_slot args st i t ht]
    have hih := ih hrest (i + 1)
    simp only [List.zip] at hih
    simp only []
    rw [hih]
    simp only [List.range_succ_eq_map, List.map_cons, List.map_map, List.flatMap_cons,
      List.flatMap_map, List.sum_cons, slotOffset, List.take_zero, List.map_nil, List.sum_nil,
      Nat.add_zero, List.getD_cons_zero, List.append_assoc, List.singleton_append,
      Option.some.injEq, LoopState.mk.injEq]
    refine ⟨by omega, ?_, ?_⟩
    · simp only [Nat.succ_eq_add_one, List.getD_cons_succ, List.take_succ_cons, List.map_cons,
        List.sum_cons, Nat.add_assoc]
    · have hidx : ∀ j : Nat, i + 1 + j = i + (j + 1) := fun j => by omega
      simp only [Nat.succ_eq_add_one, List.getD_cons_succ, List.take_succ_cons, List.map_cons,
        List.sum_cons, Nat.add_assoc, hidx, Function.comp_def]

theorem vectorLoop_prefix (args : ArgsBuffer) (offset : Nat) (sizes : List Nat) :
    ∀ (idx : Nat) (acc : List Action),
      ∃ extra, (sizes.foldl (vectorStep args offset) (idx, acc)).2 = acc ++ extra := by
  induction sizes with
  | nil => intro idx acc; exact ⟨[], by simp⟩
  | cons sz rest ih =>
    intro idx acc
    rw [List.foldl_cons]
    obtain ⟨extra, he⟩ := ih (vectorStep args offset (idx, acc) sz).1
      (vectorStep args offset (idx, acc) sz).2
    refine ⟨synthesizeVectorArgument idx offset
      ((List.range sz).map (fun k => readBytes args (offset + 8 * k) 8)) :: extra, ?_⟩
    rw [he]
    simp [vectorStep]

theorem runOnOperation_slots (arguments : List ArgType) (args : ArgsBuffer)
    (h : ArgType.unsupported ∉ arguments) :
    ∃ extra,
      runOnOperation arguments args =
        some { offset := (arguments.map slotSize).sum,
               stdVecSizes := (List.range arguments.length).flatMap (fun j =>
                 if arguments.getD j ArgType.unsupported = ArgType.stdvec
                 then [readSizeT args (slotOffset arguments j) / 8] else []),
               actions := (List.range arguments.length).map (fun j =>
                 slotAction args j (arguments.getD j ArgType.unsupported)
                   (slotOffset arguments j)) ++ extra } := by
  have hl := argumentLoop_slots args arguments h 0 {}
  simp only [Nat.zero_add, List.nil_append] at hl
  unfold runOnOperation
  rw [List.range_eq_range', hl]
  simp only []
  obtain ⟨extra, he⟩ := vectorLoop_prefix args ((arguments.map slotSize).sum)
    ((List.range arguments.length).flatMap (fun j =>
      if arguments.getD j ArgType.unsupported = ArgType.stdvec
      then [readSizeT args (slotOffset arguments j) / 8] else [])) 0
    ((List.range arguments.length).map (fun j =>
      slotAction args j (arguments.getD j ArgType.unsupported) (slotOffset arguments j)))
  refine ⟨extra, ?_⟩
  simp only [List.range_eq_range'] at he ⊢
  rw [he]

/-- C26. For an argument list with types among `i1`, `i32`, `i64`, `f32`, `f64` and `stdvec`,
the pass runs to the end; the slot of the `k`-th argument is read at the byte offset that is the
sum of the slot sizes (1, 4, 8, 4, 8, and 8 for a `stdvec` size slot) of the arguments before
it; the offset after the last argument is the sum of all slot sizes; and the element count
recorded for a `stdvec` is the byte size stored in its slot divided by 8. -/
theorem argument_offsets (arguments : List ArgType) (args : ArgsBuffer)
    (h : ArgType.unsupported ∉ arguments) :
    ∃ r : SynthesisRun, runOnOperation arguments args = some r ∧
      r.offset = (arguments.map slotSize).sum ∧
      (∀ k type, arguments[k]? = some type →
        r.actions[k]? = some (slotAction args k type (slotOffset arguments k))) ∧
      r.stdVecSizes = (List.range arguments.length).flatMap (fun k =>
        if arguments[k]? = some ArgType.stdvec
        then [readSizeT args (slotOffset arguments k) / 8] else []) := by
  obtain ⟨extra, hr⟩ := runOnOperation_slots arguments args h
  refine ⟨_, hr, rfl, ?_, ?_⟩
  · intro k type hk
    have hlt : k < arguments.length := by
      rcases Nat.lt_or_ge k arguments.length with hlt | hge
      · exact hlt
      · rw [List.getElem?_eq_none hge] at hk
        cases hk
    have hget : arguments.getD k ArgType.unsupported = type := by
      rw [List.getD_eq_getElem?_getD, hk]
      rfl
    have hel : arguments[k] = type := by
      rw [List.getElem?_eq_getElem hlt] at hk
      exact Option.some.inj hk
    simp only []
    rw [List.getElem?_append_left (by simpa using hlt)]
    simp [hlt, hget, hel]
  · simp only []
    apply List.flatMap_congr
    intro k hk
    have hlt : k < arguments.length := by simpa using hk
    rw [List.getD_eq_getElem?_getD, List.getElem?_eq_getElem hlt]
    simp

/-- C26, instance: for `(i1, i32, stdvec, f64)` the slots start at offsets 0, 1, 5 and 13, the
final offset is 21, and a stored byte size of 24 is recorded as 3 elements. -/
theorem argument_offsets_witness :
    ∃ r : SynthesisRun,
      runOnOperation [ArgType.i1, ArgType.i32, ArgType.stdvec, ArgType.f64]
        (bufferOf [1, 7, 0, 0, 0, 24, 0, 0, 0, 0, 0, 0, 0, 9, 9, 9, 9, 9, 9, 9, 9]) = some r ∧
      r.offset = 21 ∧
      r.actions[2]? = some (Action.stdvecSize 2 5 3) ∧
      r.actions[3]? = some (Action.constant 3 ArgType.f64 13 [9, 9, 9, 9, 9, 9, 9, 9]) ∧
      r.stdVecSizes = [3] := by
  obtain ⟨r, h1, h2, h3, h4⟩ :=
    argument_offsets [ArgType.i1, ArgType.i32, ArgType.stdvec, ArgType.f64]
      (bufferOf [1, 7, 0, 0, 0, 24, 0, 0, 0, 0, 0, 0, 0, 9, 9, 9, 9, 9, 9, 9, 9]) (by decide)
  refine ⟨r, h1, ?_, ?_, ?_, ?_⟩
  · rw [h2]; decide
  · rw [h3 2 ArgType.stdvec rfl]; decide
  · rw [h3 3 ArgType.f64 rfl]; decide
  · rw [h4]; decide

end QuakeSynthesizer

end cudaq
